import Mathlib

/-!
Verification of the Reversan Engine board backends.

This file gives a shallow embedding of the RISC-V-vector board backends of the
Reversan Engine (`src/board/board_rvv.cpp` and the two further variants of the
same translation unit) together with the engine-construction dispatch of
`main.cpp`, and proves the frozen specification claims about them.

Modelling conventions:
* `uint64_t` values are natural numbers; every left shift is reduced `% 2 ^ 64`
  exactly where the machine word wraps, and `~x` is `x ^^^ (2 ^ 64 - 1)`.
* An RVV register `vuint64m1_t` with `vl = 4` holds four independent 64-bit
  lanes; every intrinsic used by the code acts lanewise, so a register is
  embedded as its four lane values and each vector instruction as the
  corresponding scalar operation applied per lane.  `vredor` is the bitwise or
  of the four lanes.
* `int` arithmetic never overflows in this code path, so it is embedded as `ℤ`;
  the `i8`/`i16` element types of the vectorized evaluator are embedded with
  explicit two's-complement wrapping.
-/

namespace Reversan

/-- The modulus of 64-bit unsigned machine arithmetic (`uint64_t`). -/
def M64 : ℕ := 2 ^ 64

/-- Bitwise complement of a 64-bit word, `~x` in C on `uint64_t`. -/
def compl64 (x : ℕ) : ℕ := x ^^^ (M64 - 1)

/-- `std::popcount` on a 64-bit word: the number of set bits among bits `0..63`. -/
def popcount (x : ℕ) : ℕ := ((Finset.range 64).filter fun i => x.testBit i).card

namespace Masks

/-- `Masks::SIDE_COLS_MASK`; its value `0x7e7e7e7e7e7e7e7e` is given literally in
`board_rvv.cpp` (the `col_mask_data` table).  It clears the two edge columns. -/
def SIDE_COLS_MASK : ℕ := 0x7e7e7e7e7e7e7e7e

/-- `Masks::NO_COL_MASK`; its value `0xffffffffffffffff` is given literally in
`board_rvv.cpp` (the `col_mask_data` table). -/
def NO_COL_MASK : ℕ := 0xffffffffffffffff

end Masks

/-- The board state: two 64-bit occupancy bitmaps, one per color. -/
structure Board where
  white_bitmap : ℕ
  black_bitmap : ℕ

/-- Modelled from the spec: `Board::heuristics_map` is declared in
`include/board/board.h`, which is not under `src/`; the spec fixes only that it
is "a constant table of 64 signed integer cell weights, symmetric in color".
We fix a representative table of small signed weights (corner-heavy, as usual
for this game); every theorem whose truth depends on the concrete values says
so in its documentation. -/
def heuristics_map : List ℤ :=
  [100, -10, 11, 6, 6, 11, -10, 100,
   -10, -20, 1, 2, 2, 1, -20, -10,
   10, 1, 5, 4, 4, 5, 1, 10,
   6, 2, 4, 2, 2, 4, 2, 6,
   6, 2, 4, 2, 2, 4, 2, 6,
   10, 1, 5, 4, 4, 5, 1, 10,
   -10, -20, 1, 2, 2, 1, -20, -10,
   100, -10, 11, 6, 6, 11, -10, 100]

/-- Entry `j` of `heuristics_map` (the C array access `heuristics_map[j]`). -/
def heurW (j : ℕ) : ℤ := heuristics_map.getD j 0

/-- The shift amounts of the four direction lanes, `shift_vals_data = {1,7,8,9}`. -/
def shift_vals_data : List ℕ := [1, 7, 8, 9]

/-- The per-lane wraparound guards,
`col_mask_data = {SIDE_COLS_MASK, SIDE_COLS_MASK, NO_COL_MASK, SIDE_COLS_MASK}`. -/
def col_mask_data : List ℕ :=
  [Masks.SIDE_COLS_MASK, Masks.SIDE_COLS_MASK, Masks.NO_COL_MASK, Masks.SIDE_COLS_MASK]

/-- One lane of `vor(vsll(x, s), vsrl(x, s))`: the combined one-step extension
`(x << s) | (x >> s)` of `find_moves`, with the 64-bit wrap of the left shift. -/
def shpair (x s : ℕ) : ℕ := ((x <<< s) % M64) ||| (x >>> s)

/-- One lane of the initial flood step of `find_moves`:
`ans = (vsll(playing, s) | vsrl(playing, s)) & opponent_adjusted`. -/
def lane_seed (playing oppAdj s : ℕ) : ℕ := shpair playing s &&& oppAdj

/-- One lane of one extension iteration of the `find_moves` flood:
`ans = ans | ((vsll(ans, s) | vsrl(ans, s)) & opponent_adjusted)`. -/
def lane_ext (oppAdj s ans : ℕ) : ℕ := ans ||| (shpair ans s &&& oppAdj)

namespace RvvU

/-!
The backend of `src/board/board_rvv.cpp`: the flood loop is fully unrolled
(five `FLOOD_STEP` macro expansions), and `play_move` validates captures with
`vmerge`/`vredor` instead of a scalar loop.
-/

/-- `find_moves_core` of `board_rvv.cpp`: one seed step, five unrolled
extension steps, one final shift pair per lane, `vredor` of the four lanes,
masked to the free cells.  Lane `d` carries shift `shift_vals_data[d]` and mask
`col_mask_data[d]`; `opponent_adjusted = col_mask & opponent`. -/
def find_moves_core (playing opponent free_spaces : ℕ) : ℕ :=
  let oaS := Masks.SIDE_COLS_MASK &&& opponent
  let oaN := Masks.NO_COL_MASK &&& opponent
  let lane := fun (oa s : ℕ) =>
    shpair (lane_ext oa s (lane_ext oa s (lane_ext oa s (lane_ext oa s
      (lane_ext oa s (lane_seed playing oa s)))))) s
  (lane oaS 1 ||| lane oaS 7 ||| lane oaN 8 ||| lane oaS 9) &&& free_spaces

/-- `Board::find_moves` of `board_rvv.cpp`: select `playing`/`opponent` by
color, then run `find_moves_core` on the free cells. -/
def find_moves (b : Board) (color : Bool) : ℕ :=
  let free_spaces := compl64 (b.white_bitmap ||| b.black_bitmap)
  if color then find_moves_core b.white_bitmap b.black_bitmap free_spaces
  else find_moves_core b.black_bitmap b.white_bitmap free_spaces

end RvvU

/-- One lane, both directions, of one `play_move` capture-flood iteration
(`PLAY_STEP` in `board_rvv.cpp`, the loop body in the other two variants):
`l = (l | (l << s)) & oppAdj`, `r = (r | (r >> s)) & oppAdj` on the pair
`(l, r)` of the two shift accumulators. -/
def play_ext (oppAdj s : ℕ) (lr : ℕ × ℕ) : ℕ × ℕ :=
  ((lr.1 ||| ((lr.1 <<< s) % M64)) &&& oppAdj, (lr.2 ||| (lr.2 >>> s)) &&& oppAdj)

/-- One lane of the initial `play_move` step:
`l = (move << s) & oppAdj`, `r = (move >> s) & oppAdj`. -/
def play_seed (move oppAdj s : ℕ) : ℕ × ℕ :=
  (((move <<< s) % M64) &&& oppAdj, (move >>> s) &&& oppAdj)

/-- One lane of the `play_move` flood after its six iterations: the final
accumulators `(left, right)` together with the last probe values
`(left_next, right_next) = (l₅ << s, r₅ >> s)` left by the sixth iteration. -/
def play_lane (move oppAdj s : ℕ) : (ℕ × ℕ) × (ℕ × ℕ) :=
  let p5 := (play_ext oppAdj s)^[5] (play_seed move oppAdj s)
  (play_ext oppAdj s p5, ((p5.1 <<< s) % M64, p5.2 >>> s))

namespace RvvU

/-- `Board::play_move` of `board_rvv.cpp`.  Captures are validated branch-free:
`vmerge` keeps a lane's accumulator exactly when `next & playing ≠ 0`, the four
lanes are `vor`ed pairwise and reduced with `vredor`. -/
def play_move (b : Board) (color : Bool) (move : ℕ) : Board :=
  let playing := if color then b.white_bitmap else b.black_bitmap
  let opponent := if color then b.black_bitmap else b.white_bitmap
  let q1 := play_lane move (Masks.SIDE_COLS_MASK &&& opponent) 1
  let q7 := play_lane move (Masks.SIDE_COLS_MASK &&& opponent) 7
  let q8 := play_lane move (Masks.NO_COL_MASK &&& opponent) 8
  let q9 := play_lane move (Masks.SIDE_COLS_MASK &&& opponent) 9
  let capL := fun (q : (ℕ × ℕ) × (ℕ × ℕ)) =>
    if q.2.1 &&& playing ≠ 0 then q.1.1 else 0
  let capR := fun (q : (ℕ × ℕ) × (ℕ × ℕ)) =>
    if q.2.2 &&& playing ≠ 0 then q.1.2 else 0
  let capture := (capL q1 ||| capR q1) ||| (capL q7 ||| capR q7) |||
    (capL q8 ||| capR q8) ||| (capL q9 ||| capR q9)
  let playing' := (playing ||| move) ||| capture
  let opponent' := opponent ^^^ capture
  if color then ⟨playing', opponent'⟩ else ⟨opponent', playing'⟩

end RvvU

namespace RvvA

/-!
The first variant in the unnamed translation unit (`part_002`, first file):
`find_moves`/`play_move` use counted loops instead of unrolling, and
`rate_board` is the scalar 64-iteration loop.
-/

/-- `Board::find_moves`, loop form: the `for (int i = 0; i < 5; ++i)` extension
loop is the five-fold iterate of one extension step. -/
def find_moves (b : Board) (color : Bool) : ℕ :=
  let free_spaces := compl64 (b.white_bitmap ||| b.black_bitmap)
  let playing := if color then b.white_bitmap else b.black_bitmap
  let opponent := if color then b.black_bitmap else b.white_bitmap
  let oaS := Masks.SIDE_COLS_MASK &&& opponent
  let oaN := Masks.NO_COL_MASK &&& opponent
  let lane := fun (oa s : ℕ) =>
    shpair ((lane_ext oa s)^[5] (lane_seed playing oa s)) s
  (lane oaS 1 ||| lane oaS 7 ||| lane oaN 8 ||| lane oaS 9) &&& free_spaces

/-- `Board::play_move`, scalar-validation form: captures are accumulated by the
`for (int i = 0; i < 4; ++i)` loop with two conditional or-assignments per
lane, in lane order. -/
def play_move (b : Board) (color : Bool) (move : ℕ) : Board :=
  let playing := if color then b.white_bitmap else b.black_bitmap
  let opponent := if color then b.black_bitmap else b.white_bitmap
  let q1 := play_lane move (Masks.SIDE_COLS_MASK &&& opponent) 1
  let q7 := play_lane move (Masks.SIDE_COLS_MASK &&& opponent) 7
  let q8 := play_lane move (Masks.NO_COL_MASK &&& opponent) 8
  let q9 := play_lane move (Masks.SIDE_COLS_MASK &&& opponent) 9
  let acc := fun (cap : ℕ) (q : (ℕ × ℕ) × (ℕ × ℕ)) =>
    let cap1 := if q.2.1 &&& playing ≠ 0 then cap ||| q.1.1 else cap
    if q.2.2 &&& playing ≠ 0 then cap1 ||| q.1.2 else cap1
  let capture := acc (acc (acc (acc 0 q1) q7) q8) q9
  let playing' := (playing ||| move) ||| capture
  let opponent' := opponent ^^^ capture
  if color then ⟨playing', opponent'⟩ else ⟨opponent', playing'⟩

/-- `Board::rate_board`, scalar form: the 64-iteration loop
`score += bit(white, i) * heuristics_map[63 - i] - bit(black, i) * heuristics_map[63 - i]`
followed by the mobility term
`10 * (popcount(find_moves(true)) - popcount(find_moves(false)))`. -/
def rate_board (b : Board) : ℤ :=
  let score : ℤ := ∑ i ∈ Finset.range 64,
    ((((b.white_bitmap >>> i) &&& 1 : ℕ) : ℤ) * heurW (63 - i) -
      (((b.black_bitmap >>> i) &&& 1 : ℕ) : ℤ) * heurW (63 - i))
  let moves_delta : ℤ :=
    (popcount (find_moves b true) : ℤ) - (popcount (find_moves b false) : ℤ)
  score + 10 * moves_delta

end RvvA

/-- Two's-complement reading of the low byte of a natural number (`int8_t`). -/
def toInt8 (n : ℕ) : ℤ :=
  if n % 256 < 128 then ((n % 256 : ℕ) : ℤ) else ((n % 256 : ℕ) : ℤ) - 256

/-- The 8-bit element subtraction `vsub_vv_i8` on two byte values: two's
complement wrap of `a - b`. -/
def i8sub (a b : ℕ) : ℤ := toInt8 (a + 256 - b)

/-- Two's-complement wrap of an integer to the 16-bit element type `int16_t`,
the accumulator width of `vredsum_vs_i16m4_i16m1`. -/
def wrap16 (z : ℤ) : ℤ := (z + 32768) % 65536 - 32768

/-- Byte `r` (counting from the least significant byte) of a 64-bit word: the
element view taken by `vreinterpret_v_u64m2_u8m2`. -/
def byteAt (v r : ℕ) : ℕ := (v >>> (8 * r)) &&& 255

/-- Lane `c` of phase 1 of the vectorized `rate_board`:
`(bitmap >> shift_vals[c]) & 0x0101010101010101` with `shift_vals = {7,6,...,0}`,
so lane `c` carries shift `7 - c`. -/
def bit01_lane (x c : ℕ) : ℕ := (x >>> (7 - c)) &&& 0x0101010101010101

/-- `rvv_convert_col`: packs the eight heuristic weights of board column `col`
into one `uint64_t`, most significant byte first, each weight truncated to a
byte by `static_cast<uint8_t>`. -/
def rvv_convert_col (col : ℕ) : ℕ :=
  (List.range 8).foldl (fun val i => (val <<< 8) ||| ((heurW (i * 8 + col)).emod 256).toNat) 0

/-- The common body of the two vectorized `rate_board` variants.  Lane `c`,
byte `r` of the 64-byte register view multiplies the `0/1` presence byte of
each bitmap (via `i8sub`) with byte `r` of `heur_cols[c]` (an `i8 × i8 → i16`
widening multiply, hence exact), `vredsum` adds the 64 products with 16-bit
wraparound, and the mobility term is added in `int` arithmetic. -/
def rate_board_vec (b : Board) (white_moves black_moves : ℕ) : ℤ :=
  let score := wrap16 (∑ c ∈ Finset.range 8, ∑ r ∈ Finset.range 8,
    i8sub (byteAt (bit01_lane b.white_bitmap c) r) (byteAt (bit01_lane b.black_bitmap c) r) *
      toInt8 (byteAt (rvv_convert_col c) r))
  let moves_delta : ℤ := (popcount white_moves : ℤ) - (popcount black_moves : ℤ)
  score + 10 * moves_delta

namespace RvvU

/-- `Board::rate_board` of `board_rvv.cpp`: the vectorized weight sum, with the
two mobility flood computations inlined through `find_moves_core` on shared
setup. -/
def rate_board (b : Board) : ℤ :=
  let free_spaces := compl64 (b.white_bitmap ||| b.black_bitmap)
  rate_board_vec b
    (find_moves_core b.white_bitmap b.black_bitmap free_spaces)
    (find_moves_core b.black_bitmap b.white_bitmap free_spaces)

end RvvU

namespace RvvB

/-!
The second variant in the unnamed translation unit (`part_002`, second file):
`find_moves`/`play_move` are identical to the first variant's loop forms, and
`rate_board` is the vectorized evaluator calling `find_moves` for mobility.
-/

/-- `Board::find_moves` of the second variant; the source text coincides with
the first variant's. -/
def find_moves (b : Board) (color : Bool) : ℕ :=
  let free_spaces := compl64 (b.white_bitmap ||| b.black_bitmap)
  let playing := if color then b.white_bitmap else b.black_bitmap
  let opponent := if color then b.black_bitmap else b.white_bitmap
  let oaS := Masks.SIDE_COLS_MASK &&& opponent
  let oaN := Masks.NO_COL_MASK &&& opponent
  let lane := fun (oa s : ℕ) =>
    shpair ((lane_ext oa s)^[5] (lane_seed playing oa s)) s
  (lane oaS 1 ||| lane oaS 7 ||| lane oaN 8 ||| lane oaS 9) &&& free_spaces

/-- `Board::play_move` of the second variant; the source text coincides with
the first variant's. -/
def play_move (b : Board) (color : Bool) (move : ℕ) : Board :=
  let playing := if color then b.white_bitmap else b.black_bitmap
  let opponent := if color then b.black_bitmap else b.white_bitmap
  let q1 := play_lane move (Masks.SIDE_COLS_MASK &&& opponent) 1
  let q7 := play_lane move (Masks.SIDE_COLS_MASK &&& opponent) 7
  let q8 := play_lane move (Masks.NO_COL_MASK &&& opponent) 8
  let q9 := play_lane move (Masks.SIDE_COLS_MASK &&& opponent) 9
  let acc := fun (cap : ℕ) (q : (ℕ × ℕ) × (ℕ × ℕ)) =>
    let cap1 := if q.2.1 &&& playing ≠ 0 then cap ||| q.1.1 else cap
    if q.2.2 &&& playing ≠ 0 then cap1 ||| q.1.2 else cap1
  let capture := acc (acc (acc (acc 0 q1) q7) q8) q9
  let playing' := (playing ||| move) ||| capture
  let opponent' := opponent ^^^ capture
  if color then ⟨playing', opponent'⟩ else ⟨opponent', playing'⟩

/-- `Board::rate_board` of the second variant: the vectorized weight sum with
mobility through `find_moves`. -/
def rate_board (b : Board) : ℤ :=
  rate_board_vec b (find_moves b true) (find_moves b false)

end RvvB

namespace Main

/-- `Engine::Alg`, the algorithm selection enum.  Modelled from the spec: the
enum is declared in `include/engine/engine.h`, which is not under `src/`; the
spec's search settings list exactly the two algorithm choices that `main.cpp`
tests, `ALPHABETA` and `NEGASCOUT`. -/
inductive Alg where
  | ALPHABETA
  | NEGASCOUT
deriving DecidableEq

/-- The three engine classes `main.cpp` can construct. -/
inductive EngineKind where
  | alphabeta
  | negascoutParallel
  | negascout
deriving DecidableEq

/-- The engine-construction dispatch of `main.cpp` (lines 122-130): serial
`Alphabeta` when the parsed algorithm is `ALPHABETA`, `NegascoutParallel` when
it is `NEGASCOUT` and `thread_count > 1`, serial `Negascout` otherwise. -/
def chooseEngine (alg : Alg) (thread_count : ℕ) : EngineKind :=
  if alg = Alg.ALPHABETA then EngineKind.alphabeta
  else if alg = Alg.NEGASCOUT ∧ thread_count > 1 then EngineKind.negascoutParallel
  else EngineKind.negascout

end Main

/-! ### Basic facts about the 64-bit embedding -/

theorem M64_pos : 0 < M64 := by decide

theorem testBit_false_of_ge {x i : ℕ} (hx : x < M64) (hi : 64 ≤ i) :
    x.testBit i = false := by
  apply Nat.testBit_lt_two_pow
  calc x < M64 := hx
    _ = 2 ^ 64 := rfl
    _ ≤ 2 ^ i := Nat.pow_le_pow_right (by decide) hi

theorem lt_64_of_testBit {x i : ℕ} (hx : x < M64) (h : x.testBit i = true) :
    i < 64 := by
  by_contra hi
  rw [testBit_false_of_ge hx (by omega)] at h
  exact Bool.false_ne_true h

theorem land_lt_M64_left {x y : ℕ} (hx : x < M64) : x &&& y < M64 :=
  lt_of_le_of_lt Nat.and_le_left hx

theorem land_lt_M64_right {x y : ℕ} (hy : y < M64) : x &&& y < M64 :=
  lt_of_le_of_lt Nat.and_le_right hy

theorem ne_zero_iff_exists_testBit {x : ℕ} : x ≠ 0 ↔ ∃ i, x.testBit i = true := by
  constructor
  · intro hx
    by_contra hall
    push_neg at hall
    exact hx (Nat.eq_of_testBit_eq fun i => by
      simpa using Bool.eq_false_iff.mpr (fun h => by simp [hall i] at h))
  · rintro ⟨i, hi⟩ rfl
    simp at hi

/-- Bit characterisation of `SIDE_COLS_MASK`: exactly the bits of the six
interior columns (`i % 8 ∈ [1, 6]`) of the 8×8 grid. -/
theorem side_mask_testBit (i : ℕ) :
    Masks.SIDE_COLS_MASK.testBit i = true ↔ i < 64 ∧ 1 ≤ i % 8 ∧ i % 8 ≤ 6 := by
  rcases Nat.lt_or_ge i 64 with h | h
  · revert h
    revert i
    decide
  · rw [testBit_false_of_ge (by decide) h]
    simp
    omega

/-- Bit characterisation of `NO_COL_MASK`: all 64 board bits. -/
theorem no_mask_testBit (i : ℕ) :
    Masks.NO_COL_MASK.testBit i = true ↔ i < 64 := by
  rcases Nat.lt_or_ge i 64 with h | h
  · revert h
    revert i
    decide
  · rw [testBit_false_of_ge (by decide) h]
    simp
    omega

/-- Bit reading of the complement `~(white | black)`: inside the board it
negates, outside the board it is empty (for in-range inputs). -/
theorem compl64_testBit {x : ℕ} (hx : x < M64) (i : ℕ) :
    (compl64 x).testBit i = true ↔ i < 64 ∧ x.testBit i = false := by
  have h64 : (M64 - 1) = 2 ^ 64 - 1 := rfl
  rw [compl64, h64]
  simp only [Nat.testBit_xor, Nat.testBit_two_pow_sub_one]
  rcases Nat.lt_or_ge i 64 with h | h
  · simp [h]
  · have h' : ¬ i < 64 := by omega
    simp [h', testBit_false_of_ge hx h]

/-- Bit reading of the combined directional extension `(x << s) | (x >> s)`
(with the 64-bit wrap of the left shift). -/
theorem shpair_testBit (x s i : ℕ) :
    (shpair x s).testBit i = true ↔
      (i < 64 ∧ s ≤ i ∧ x.testBit (i - s) = true) ∨ x.testBit (s + i) = true := by
  have hM : M64 = 2 ^ 64 := rfl
  rw [shpair, hM]
  simp only [Nat.testBit_or, Nat.testBit_mod_two_pow, Nat.testBit_shiftLeft,
    Nat.testBit_shiftRight]
  simp [and_assoc]

/-! ### The three backends agree on `find_moves` and `play_move` -/

theorem iterate_ext_five (oa s : ℕ) (x : ℕ) :
    (lane_ext oa s)^[5] x =
      lane_ext oa s (lane_ext oa s (lane_ext oa s (lane_ext oa s (lane_ext oa s x)))) := by
  simp [Function.iterate_succ', - Function.iterate_succ]

theorem find_moves_A_eq_U (b : Board) (color : Bool) :
    RvvA.find_moves b color = RvvU.find_moves b color := by
  cases color <;>
    simp [RvvA.find_moves, RvvU.find_moves, RvvU.find_moves_core, iterate_ext_five]

theorem find_moves_B_eq_A (b : Board) (color : Bool) :
    RvvB.find_moves b color = RvvA.find_moves b color := rfl

theorem play_move_B_eq_A (b : Board) (color : Bool) (move : ℕ) :
    RvvB.play_move b color move = RvvA.play_move b color move := rfl

theorem ite_lor_shift {c : Prop} [Decidable c] (cap x : ℕ) :
    (if c then cap ||| x else cap) = cap ||| (if c then x else 0) := by
  by_cases h : c <;> simp [h]

theorem play_move_A_eq_U (b : Board) (color : Bool) (move : ℕ) :
    RvvA.play_move b color move = RvvU.play_move b color move := by
  cases color <;>
  · simp only [RvvA.play_move, RvvU.play_move, Bool.false_eq_true, if_false, if_true,
      ite_lor_shift]
    simp only [Nat.zero_or, Nat.lor_assoc]

/-! ### The pass move -/

theorem play_seed_zero (oa s : ℕ) : play_seed 0 oa s = (0, 0) := by
  simp [play_seed, Nat.zero_shiftLeft, Nat.zero_shiftRight, Nat.zero_and]

theorem play_ext_zero (oa s : ℕ) : play_ext oa s (0, 0) = (0, 0) := by
  simp [play_ext, Nat.zero_shiftLeft, Nat.zero_shiftRight, Nat.zero_and]

theorem play_lane_zero (oa s : ℕ) : play_lane 0 oa s = ((0, 0), (0, 0)) := by
  have h5 : (play_ext oa s)^[5] (play_seed 0 oa s) = (0, 0) := by
    rw [play_seed_zero]
    exact Function.iterate_fixed (play_ext_zero oa s) 5
  simp only [play_lane, h5, play_ext_zero]
  simp only [Nat.zero_shiftLeft, Nat.zero_mod, Nat.zero_shiftRight]

theorem play_move_A_zero (b : Board) (color : Bool) : RvvA.play_move b color 0 = b := by
  cases color <;>
    simp [RvvA.play_move, play_lane_zero, Nat.zero_and, Nat.or_zero, Nat.xor_zero]

/-- **C10** Pass move is a no-op: in all three backends, calling `play_move`
with the all-zero move mask leaves both occupancy bitmaps unchanged — the
capture set computes to zero and the destination-bit or adds nothing. -/
theorem claim_C10 (b : Board) (color : Bool) :
    RvvA.play_move b color 0 = b ∧ RvvB.play_move b color 0 = b ∧
      RvvU.play_move b color 0 = b := by
  refine ⟨play_move_A_zero b color, ?_, ?_⟩
  · rw [play_move_B_eq_A]
    exact play_move_A_zero b color
  · rw [← play_move_A_eq_U]
    exact play_move_A_zero b color

/-! ### Engine-construction dispatch -/

/-- **C7** Engine-construction dispatch: the driver constructs the serial
alpha-beta engine exactly when the chosen algorithm is `ALPHABETA` (regardless
of thread count), the parallel negascout engine exactly when the algorithm is
`NEGASCOUT` and the thread count exceeds 1, and the serial negascout engine in
exactly the remaining cases; with thread count 1 the result is always one of
the two serial engines. -/
theorem claim_C7 (alg : Main.Alg) (tc : ℕ) :
    (Main.chooseEngine alg tc = Main.EngineKind.alphabeta ↔ alg = Main.Alg.ALPHABETA) ∧
    (Main.chooseEngine alg tc = Main.EngineKind.negascoutParallel ↔
      (alg = Main.Alg.NEGASCOUT ∧ 1 < tc)) ∧
    (Main.chooseEngine alg tc = Main.EngineKind.negascout ↔
      (alg ≠ Main.Alg.ALPHABETA ∧ ¬(alg = Main.Alg.NEGASCOUT ∧ 1 < tc))) ∧
    (Main.chooseEngine alg 1 = Main.EngineKind.alphabeta ∨
      Main.chooseEngine alg 1 = Main.EngineKind.negascout) := by
  cases alg <;> by_cases h : 1 < tc <;>
    simp [Main.chooseEngine, h]

/-! ### Directional flood analysis

One lane of the `find_moves` flood, with shift `s` and masked opponent set
`oppAdj`, is characterised by straight runs in bit-index space.
-/

/-- The flood state of one lane after the seed step and `n` extension
iterations. -/
def floodN (playing oppAdj s n : ℕ) : ℕ :=
  (lane_ext oppAdj s)^[n] (lane_seed playing oppAdj s)

/-- A straight run upward in bit-index space: opponent-masked cells at
`x, x+s, …, x+(k-1)·s` and a mover disc at `x + k·s`. -/
def chainUp (p oa s x k : ℕ) : Prop :=
  (∀ j, j < k → oa.testBit (x + j * s) = true) ∧ p.testBit (x + k * s) = true

/-- A straight run downward in bit-index space: a mover disc at `y`,
opponent-masked cells at `y+s, …, y+k·s`, with `x = y + k·s` the top cell. -/
def chainDn (p oa s x k : ℕ) : Prop :=
  ∃ y, x = y + k * s ∧ p.testBit y = true ∧
    ∀ j, 1 ≤ j → j ≤ k → oa.testBit (y + j * s) = true

theorem floodN_zero (p oa s : ℕ) : floodN p oa s 0 = lane_seed p oa s := rfl

theorem floodN_succ (p oa s n : ℕ) :
    floodN p oa s (n + 1) = lane_ext oa s (floodN p oa s n) :=
  Function.iterate_succ_apply' _ _ _

theorem lane_seed_testBit (p oa s i : ℕ) :
    (lane_seed p oa s).testBit i = true ↔
      (((i < 64 ∧ s ≤ i ∧ p.testBit (i - s) = true) ∨ p.testBit (s + i) = true) ∧
        oa.testBit i = true) := by
  rw [lane_seed]
  simp [Nat.testBit_and, shpair_testBit]

theorem lane_ext_testBit (oa s a i : ℕ) :
    (lane_ext oa s a).testBit i = true ↔
      (a.testBit i = true ∨
        (((i < 64 ∧ s ≤ i ∧ a.testBit (i - s) = true) ∨ a.testBit (s + i) = true) ∧
          oa.testBit i = true)) := by
  rw [lane_ext]
  simp [Nat.testBit_or, Nat.testBit_and, shpair_testBit]

theorem land_zero_not_both {x y : ℕ} (h : x &&& y = 0) (i : ℕ) :
    ¬(x.testBit i = true ∧ y.testBit i = true) := by
  rintro ⟨hx, hy⟩
  have hc := congrArg (fun t => t.testBit i) h
  simp [Nat.testBit_and, hx, hy] at hc

theorem flood_oa {p oa s : ℕ} :
    ∀ {n x}, (floodN p oa s n).testBit x = true → oa.testBit x = true := by
  intro n
  induction n with
  | zero =>
    intro x hx
    rw [floodN_zero, lane_seed_testBit] at hx
    exact hx.2
  | succ n IH =>
    intro x hx
    rw [floodN_succ, lane_ext_testBit] at hx
    rcases hx with hx | hx
    · exact IH hx
    · exact hx.2

theorem flood_mono {p oa s : ℕ} {m n x : ℕ} (h : m ≤ n)
    (hbit : (floodN p oa s m).testBit x = true) :
    (floodN p oa s n).testBit x = true := by
  obtain ⟨d, rfl⟩ := Nat.exists_eq_add_of_le h
  clear h
  induction d with
  | zero => exact hbit
  | succ d IH =>
    have : m + (d + 1) = (m + d) + 1 := by omega
    rw [this, floodN_succ, lane_ext_testBit]
    exact Or.inl IH

/-- Soundness of the flood: every cell reached after `n` extension iterations
is linked to a mover disc by a straight run of at most `n + 1` steps, upward or
downward. -/
theorem flood_sound {p oa s : ℕ}
    (hdisj : ∀ t, ¬(p.testBit t = true ∧ oa.testBit t = true)) :
    ∀ n x, (floodN p oa s n).testBit x = true →
      ∃ k, 1 ≤ k ∧ k ≤ n + 1 ∧ (chainUp p oa s x k ∨ chainDn p oa s x k) := by
  intro n
  induction n with
  | zero =>
    intro x hx
    rw [floodN_zero, lane_seed_testBit] at hx
    obtain ⟨hsh, hoa⟩ := hx
    rcases hsh with ⟨h64, hsle, hp⟩ | hp
    · refine ⟨1, le_refl 1, by omega, Or.inr ⟨x - s, by omega, hp, ?_⟩⟩
      intro j h1 hj
      have hj1 : j = 1 := by omega
      subst hj1
      have he : x - s + 1 * s = x := by omega
      rw [he]
      exact hoa
    · refine ⟨1, le_refl 1, by omega, Or.inl ⟨?_, ?_⟩⟩
      · intro j hj
        have hj0 : j = 0 := by omega
        subst hj0
        simpa using hoa
      · have he : x + 1 * s = s + x := by ring
        rw [he]
        exact hp
  | succ n IH =>
    intro x hx
    rw [floodN_succ, lane_ext_testBit] at hx
    rcases hx with hx | ⟨hsh, hoa⟩
    · obtain ⟨k, hk1, hkn, hch⟩ := IH x hx
      exact ⟨k, hk1, by omega, hch⟩
    rcases hsh with ⟨h64, hsle, hbit⟩ | hbit
    · -- the new cell came from one step up from `x - s`
      obtain ⟨k, hk1, hkn, hch⟩ := IH (x - s) hbit
      rcases hch with ⟨hrun, hp⟩ | ⟨y, hxy, hpy, hrun⟩
      · -- upward chain at `x - s`; its first cell above the base is `x` itself
        rcases Nat.lt_or_ge 1 k with hk2 | hk2
        · obtain ⟨k', rfl⟩ : ∃ k', k = k' + 1 := ⟨k - 1, by omega⟩
          refine ⟨k', by omega, by omega, Or.inl ⟨?_, ?_⟩⟩
          · intro j hj
            have he : x + j * s = (x - s) + (j + 1) * s := by
              have : (j + 1) * s = j * s + s := by ring
              omega
            rw [he]
            exact hrun (j + 1) (by omega)
          · have he : x + k' * s = (x - s) + (k' + 1) * s := by
              have : (k' + 1) * s = k' * s + s := by ring
              omega
            rw [he]
            exact hp
        · -- k = 1 : the mover disc would sit on the masked opponent cell `x`
          have hk3 : k = 1 := by omega
          subst hk3
          have he : (x - s) + 1 * s = x := by omega
          rw [he] at hp
          exact absurd ⟨hp, hoa⟩ (hdisj x)
      · refine ⟨k + 1, by omega, by omega, Or.inr ⟨y, ?_, hpy, ?_⟩⟩
        · have : (k + 1) * s = k * s + s := by ring
          omega
        · intro j h1 hj
          rcases Nat.lt_or_ge j (k + 1) with hjk | hjk
          · exact hrun j h1 (by omega)
          · have hj1 : j = k + 1 := by omega
            subst hj1
            have he : y + (k + 1) * s = x := by
              have : (k + 1) * s = k * s + s := by ring
              omega
            rw [he]
            exact hoa
    · -- the new cell came from one step down from `x + s`
      have hsx : s + x = x + s := by ring
      rw [hsx] at hbit
      obtain ⟨k, hk1, hkn, hch⟩ := IH (x + s) hbit
      rcases hch with ⟨hrun, hp⟩ | ⟨y, hxy, hpy, hrun⟩
      · refine ⟨k + 1, by omega, by omega, Or.inl ⟨?_, ?_⟩⟩
        · intro j hj
          rcases Nat.eq_zero_or_pos j with hj0 | hj0
          · subst hj0
            simpa using hoa
          · obtain ⟨j', rfl⟩ : ∃ j', j = j' + 1 := ⟨j - 1, by omega⟩
            have he : x + (j' + 1) * s = (x + s) + j' * s := by ring
            rw [he]
            exact hrun j' (by omega)
        · have he : x + (k + 1) * s = (x + s) + k * s := by ring
          rw [he]
          exact hp
      · rcases Nat.lt_or_ge 1 k with hk2 | hk2
        · obtain ⟨k', rfl⟩ : ∃ k', k = k' + 1 := ⟨k - 1, by omega⟩
          refine ⟨k', by omega, by omega, Or.inr ⟨y, ?_, hpy, ?_⟩⟩
          · have : (k' + 1) * s = k' * s + s := by ring
            omega
          · intro j h1 hj
            exact hrun j h1 (by omega)
        · -- k = 1 : the mover disc would sit on the masked opponent cell `x`
          have hk3 : k = 1 := by omega
          subst hk3
          have hyx : y = x := by omega
          subst hyx
          exact absurd ⟨hpy, hoa⟩ (hdisj y)

/-- Completeness of the flood, upward runs: a straight upward run of length
`k ≤ n + 1` puts its base cell into the flood after `n` iterations. -/
theorem chainUp_flood {p oa s : ℕ} :
    ∀ n k x, 1 ≤ k → k ≤ n + 1 → chainUp p oa s x k →
      (floodN p oa s n).testBit x = true := by
  intro n
  induction n with
  | zero =>
    intro k x hk1 hk hch
    have hk' : k = 1 := by omega
    subst hk'
    obtain ⟨hrun, hp⟩ := hch
    rw [floodN_zero, lane_seed_testBit]
    refine ⟨Or.inr ?_, ?_⟩
    · have he : s + x = x + 1 * s := by ring
      rw [he]
      exact hp
    · simpa using hrun 0 (by omega)
  | succ n IH =>
    intro k x hk1 hk hch
    rcases le_or_lt k (n + 1) with h | h
    · exact flood_mono (Nat.le_succ n) (IH k x hk1 h hch)
    · have hk2 : k = n + 2 := by omega
      subst hk2
      obtain ⟨hrun, hp⟩ := hch
      have hch' : chainUp p oa s (x + s) (n + 1) := by
        constructor
        · intro j hj
          have he : (x + s) + j * s = x + (j + 1) * s := by ring
          rw [he]
          exact hrun (j + 1) (by omega)
        · have he : (x + s) + (n + 1) * s = x + (n + 2) * s := by ring
          rw [he]
          exact hp
      have hfl := IH (n + 1) (x + s) (by omega) (by omega) hch'
      rw [floodN_succ, lane_ext_testBit]
      refine Or.inr ⟨Or.inr ?_, ?_⟩
      · have he : s + x = x + s := by ring
        rw [he]
        exact hfl
      · simpa using hrun 0 (by omega)

/-- Completeness of the flood, downward runs: a straight downward run of
length `k ≤ n + 1` puts its top cell into the flood after `n` iterations. -/
theorem chainDn_flood {p oa s : ℕ} (hoa : oa < M64) :
    ∀ n k x, 1 ≤ k → k ≤ n + 1 → chainDn p oa s x k →
      (floodN p oa s n).testBit x = true := by
  intro n
  induction n with
  | zero =>
    intro k x hk1 hk hch
    have hk' : k = 1 := by omega
    subst hk'
    obtain ⟨y, hxy, hpy, hrun⟩ := hch
    have hoax : oa.testBit x = true := by
      have := hrun 1 (by omega) (by omega)
      have he : y + 1 * s = x := by omega
      rwa [he] at this
    rw [floodN_zero, lane_seed_testBit]
    refine ⟨Or.inl ⟨lt_64_of_testBit hoa hoax, by omega, ?_⟩, hoax⟩
    have he : x - s = y := by omega
    rw [he]
    exact hpy
  | succ n IH =>
    intro k x hk1 hk hch
    rcases le_or_lt k (n + 1) with h | h
    · exact flood_mono (Nat.le_succ n) (IH k x hk1 h hch)
    · have hk2 : k = n + 2 := by omega
      subst hk2
      obtain ⟨y, hxy, hpy, hrun⟩ := hch
      have hmul : (n + 2) * s = (n + 1) * s + s := by ring
      have hoax : oa.testBit x = true := by
        have := hrun (n + 2) (by omega) (by omega)
        rwa [← hxy] at this
      have hch' : chainDn p oa s (x - s) (n + 1) :=
        ⟨y, by omega, hpy, fun j h1 hj => hrun j h1 (by omega)⟩
      have hfl := IH (n + 1) (x - s) (by omega) (by omega) hch'
      rw [floodN_succ, lane_ext_testBit]
      exact Or.inr ⟨Or.inl ⟨lt_64_of_testBit hoa hoax, by omega, hfl⟩, hoax⟩

/-! ### The geometric specification of legal moves

Bit `i` of a bitmap is cell `(i / 8, i % 8)` of the 8×8 grid; the four lane
shifts `{1, 7, 8, 9}` with their two shift directions realise the eight
king-move directions `(dr, dc)` with `8·dr + dc = ±s`.
-/

/-- Cell `(r, c)` of the 8×8 grid (row-major, bit `8·r + c`) is on the board
and holds a disc of the set `x`.  Coordinates are in `ℤ` so that direction
vectors can be added. -/
def cellAt (x : ℕ) (r c : ℤ) : Prop :=
  0 ≤ r ∧ r < 8 ∧ 0 ≤ c ∧ c < 8 ∧ x.testBit (8 * r + c).toNat = true

/-- The eight king-move directions of the grid. -/
def dirs8 : List (ℤ × ℤ) :=
  [(0, 1), (0, -1), (1, -1), (-1, 1), (1, 0), (-1, 0), (1, 1), (-1, -1)]

/-- The specification of a legal move at cell `(r, c)` for the mover set `p`
against the opponent set `o`: in some of the eight directions, a contiguous
run of `k ≥ 1` opponent discs starts next to the cell and terminates at a
mover disc. -/
def legalFrom (p o : ℕ) (r c : ℤ) : Prop :=
  ∃ d ∈ dirs8, ∃ k : ℕ, 1 ≤ k ∧
    (∀ j : ℕ, 1 ≤ j → j ≤ k → cellAt o (r + j * d.1) (c + j * d.2)) ∧
    cellAt p (r + (k + 1) * d.1) (c + (k + 1) * d.2)

/-- The legal-move specification read at a bit index. -/
def legalIdx (p o : ℕ) (i : ℕ) : Prop :=
  legalFrom p o ((i / 8 : ℕ) : ℤ) ((i % 8 : ℕ) : ℤ)

/-- Index step `z ↦ z + s` moves one king step `(dr, dc)` on the grid,
provided the step does not wrap across a board edge; either the source column
admits the column step, or the target lies in the six interior columns. -/
theorem step_coords (s z : ℕ) (dr dc : ℤ) (hsum : 8 * dr + dc = (s : ℤ))
    (hdc : -1 ≤ dc ∧ dc ≤ 1)
    (hc : (0 ≤ ((z % 8 : ℕ) : ℤ) + dc ∧ ((z % 8 : ℕ) : ℤ) + dc ≤ 7) ∨
          (1 ≤ (((z + s) % 8 : ℕ) : ℤ) ∧ (((z + s) % 8 : ℕ) : ℤ) ≤ 6)) :
    (((z + s) / 8 : ℕ) : ℤ) = ((z / 8 : ℕ) : ℤ) + dr ∧
      (((z + s) % 8 : ℕ) : ℤ) = ((z % 8 : ℕ) : ℤ) + dc := by
  omega

/-- Coordinates along a straight run: if the cells `base + j·s`, `1 ≤ j ≤ k`,
all carry the masked opponent set, every cell of the run (and one more step)
sits at `(base/8 + j·dr, base%8 + j·dc)` on the grid. -/
theorem run_coords {oa s base k : ℕ} {dr dc : ℤ}
    (hsum : 8 * dr + dc = (s : ℤ)) (hdc : -1 ≤ dc ∧ dc ≤ 1) (hk : 1 ≤ k)
    (hcol : ∀ z, oa.testBit z = true → ((1 ≤ z % 8 ∧ z % 8 ≤ 6) ∨ dc = 0))
    (hrun : ∀ j, 1 ≤ j → j ≤ k → oa.testBit (base + j * s) = true) :
    ∀ j, j ≤ k + 1 →
      (((base + j * s) / 8 : ℕ) : ℤ) = ((base / 8 : ℕ) : ℤ) + j * dr ∧
      (((base + j * s) % 8 : ℕ) : ℤ) = ((base % 8 : ℕ) : ℤ) + j * dc := by
  intro j
  induction j with
  | zero => simp
  | succ j IH =>
    intro hj1
    have IHj := IH (by omega)
    have hzs : base + (j + 1) * s = (base + j * s) + s := by ring
    have hstep := step_coords s (base + j * s) dr dc hsum hdc ?_
    · have e1 : (((j : ℕ) + 1 : ℕ) : ℤ) * dr = (j : ℤ) * dr + dr := by push_cast; ring
      have e2 : (((j : ℕ) + 1 : ℕ) : ℤ) * dc = (j : ℤ) * dc + dc := by push_cast; ring
      rw [hzs]
      constructor
      · rw [e1]
        omega
      · rw [e2]
        omega
    · rcases le_or_lt (j + 1) k with hcase | hcase
      · have hbit := hrun (j + 1) (by omega) hcase
        rw [hzs] at hbit
        rcases hcol _ hbit with hcc | hcc
        · right
          constructor <;> omega
        · left
          constructor <;> omega
      · -- here j = k ≥ 1, and the source cell is the run's last opponent cell
        have hj : j = k := by omega
        subst hj
        have hbit := hrun j (by omega) (by omega)
        rcases hcol _ hbit with hcc | hcc
        · left
          constructor <;> omega
        · left
          constructor <;> omega

/-- A terminating run fits on the board: at most six opponent discs can lie
between the move cell and the terminating mover disc. -/
theorem run_k_le_6 {r c dr dc : ℤ} {k : ℕ}
    (hdr : -1 ≤ dr ∧ dr ≤ 1) (hdc : -1 ≤ dc ∧ dc ≤ 1) (hne : ¬(dr = 0 ∧ dc = 0))
    (hr : 0 ≤ r ∧ r < 8) (hc : 0 ≤ c ∧ c < 8)
    (hrk : 0 ≤ r + ((k : ℕ) + 1 : ℕ) * dr ∧ r + ((k : ℕ) + 1 : ℕ) * dr < 8)
    (hck : 0 ≤ c + ((k : ℕ) + 1 : ℕ) * dc ∧ c + ((k : ℕ) + 1 : ℕ) * dc < 8) :
    k ≤ 6 := by
  obtain ⟨hdr1, hdr2⟩ := hdr
  obtain ⟨hdc1, hdc2⟩ := hdc
  interval_cases dr <;> interval_cases dc <;>
  · push_cast at hrk hck ⊢
    omega

theorem cellAt_of_idx {x z : ℕ} (hz : z < 64) (hbit : x.testBit z = true) :
    cellAt x ((z / 8 : ℕ) : ℤ) ((z % 8 : ℕ) : ℤ) := by
  refine ⟨by omega, by omega, by omega, by omega, ?_⟩
  have key : ((8 : ℤ) * ((z / 8 : ℕ) : ℤ) + ((z % 8 : ℕ) : ℤ)).toNat = z := by omega
  rw [key]
  exact hbit

theorem idx_of_cellAt {x : ℕ} {r c : ℤ} (h : cellAt x r c) :
    ∃ z : ℕ, z < 64 ∧ x.testBit z = true ∧ (z : ℤ) = 8 * r + c ∧
      ((z / 8 : ℕ) : ℤ) = r ∧ ((z % 8 : ℕ) : ℤ) = c := by
  obtain ⟨h1, h2, h3, h4, h5⟩ := h
  exact ⟨(8 * r + c).toNat, by omega, h5, by omega, by omega, by omega⟩

/-- Soundness of one lane at a free cell: a bit set by the lane's final
extension step at a free cell `i` witnesses a legal move at `i` in the lane's
upward direction `(dr, dc)` or its downward mirror `(-dr, -dc)`. -/
theorem lane_sound {p o mask s : ℕ} (dr dc : ℤ) {n i : ℕ}
    (hp : p < M64) (ho : o < M64)
    (hdisj : ∀ t, ¬(p.testBit t = true ∧ o.testBit t = true))
    (hsum : 8 * dr + dc = (s : ℤ)) (hdc : -1 ≤ dc ∧ dc ≤ 1)
    (hdirP : (dr, dc) ∈ dirs8) (hdirN : (-dr, -dc) ∈ dirs8)
    (hcol : ∀ z, (mask &&& o).testBit z = true → ((1 ≤ z % 8 ∧ z % 8 ≤ 6) ∨ dc = 0))
    (hip : p.testBit i = false) (hio : o.testBit i = false)
    (hbit : (shpair (floodN p (mask &&& o) s n) s).testBit i = true) :
    legalIdx p o i := by
  have hoa64 : mask &&& o < M64 := land_lt_M64_right ho
  have hoa_o : ∀ t, (mask &&& o).testBit t = true → o.testBit t = true := by
    intro t ht
    rw [Nat.testBit_and, Bool.and_eq_true] at ht
    exact ht.2
  have hdisj' : ∀ t, ¬(p.testBit t = true ∧ (mask &&& o).testBit t = true) := by
    rintro t ⟨h1, h2⟩
    exact hdisj t ⟨h1, hoa_o t h2⟩
  rw [shpair_testBit] at hbit
  rcases hbit with ⟨h64', hsle, hfl⟩ | hfl
  · -- flood reached `i - s`: a downward legal move, direction `(-dr, -dc)`
    obtain ⟨k, hk1, hkn, hch⟩ := flood_sound hdisj' n (i - s) hfl
    rcases hch with ⟨hrun, hpbit⟩ | ⟨y, hxy, hpy, hrun⟩
    · -- an upward chain at `i - s` would occupy the free cell `i` itself
      rcases (show k = 1 ∨ 2 ≤ k by omega) with hk | hk
      · subst hk
        have he : (i - s) + 1 * s = i := by omega
        rw [he] at hpbit
        simp [hpbit] at hip
      · have hbit1 := hrun 1 (by omega)
        have he : (i - s) + 1 * s = i := by omega
        rw [he] at hbit1
        simp [hoa_o _ hbit1] at hio
    · -- downward chain based at the mover disc `y`
      have e2 : (k + 1) * s = k * s + s := by ring
      have hiy : i = y + (k + 1) * s := by omega
      have hco := run_coords hsum hdc hk1 hcol hrun
      have hcoI := hco (k + 1) (le_refl _)
      rw [← hiy] at hcoI
      refine ⟨(-dr, -dc), hdirN, k, hk1, ?_, ?_⟩
      · intro j h1 hj
        have hbitj := hrun (k + 1 - j) (by omega) (by omega)
        have hltj := lt_64_of_testBit hoa64 hbitj
        have hcj := hco (k + 1 - j) (by omega)
        have ecast : ((k + 1 - j : ℕ) : ℤ) = (k : ℤ) + 1 - (j : ℤ) := by omega
        show cellAt o ((i / 8 : ℕ) + (j : ℤ) * (-dr)) ((i % 8 : ℕ) + (j : ℤ) * (-dc))
        have hA : ((i / 8 : ℕ) : ℤ) + (j : ℤ) * (-dr) =
            ((y + (k + 1 - j) * s) / 8 : ℕ) := by
          rw [hcj.1, hcoI.1, ecast]
          push_cast
          ring
        have hB : ((i % 8 : ℕ) : ℤ) + (j : ℤ) * (-dc) =
            ((y + (k + 1 - j) * s) % 8 : ℕ) := by
          rw [hcj.2, hcoI.2, ecast]
          push_cast
          ring
        rw [hA, hB]
        exact cellAt_of_idx hltj (hoa_o _ hbitj)
      · have hlty := lt_64_of_testBit hp hpy
        have hc0 := hco 0 (by omega)
        show cellAt p ((i / 8 : ℕ) + ((k : ℕ) + 1 : ℕ) * (-dr))
          ((i % 8 : ℕ) + ((k : ℕ) + 1 : ℕ) * (-dc))
        have hA : ((i / 8 : ℕ) : ℤ) + (((k : ℕ) + 1 : ℕ) : ℤ) * (-dr) =
            ((y / 8 : ℕ) : ℤ) := by
          rw [hcoI.1]
          push_cast
          ring
        have hB : ((i % 8 : ℕ) : ℤ) + (((k : ℕ) + 1 : ℕ) : ℤ) * (-dc) =
            ((y % 8 : ℕ) : ℤ) := by
          rw [hcoI.2]
          push_cast
          ring
        rw [hA, hB]
        exact cellAt_of_idx hlty hpy
  · -- flood reached `i + s`: an upward legal move, direction `(dr, dc)`
    have hsx : s + i = i + s := by ring
    rw [hsx] at hfl
    obtain ⟨k, hk1, hkn, hch⟩ := flood_sound hdisj' n (i + s) hfl
    rcases hch with ⟨hrun, hpbit⟩ | ⟨y, hxy, hpy, hrun⟩
    · -- upward chain re-based at `i`
      have hrun' : ∀ j, 1 ≤ j → j ≤ k → (mask &&& o).testBit (i + j * s) = true := by
        intro j h1 hj
        obtain ⟨j', rfl⟩ : ∃ j', j = j' + 1 := ⟨j - 1, by omega⟩
        have he : i + (j' + 1) * s = (i + s) + j' * s := by ring
        rw [he]
        exact hrun j' (by omega)
      have hpbit' : p.testBit (i + (k + 1) * s) = true := by
        have he : i + (k + 1) * s = (i + s) + k * s := by ring
        rw [he]
        exact hpbit
      have hco := run_coords hsum hdc hk1 hcol hrun'
      refine ⟨(dr, dc), hdirP, k, hk1, ?_, ?_⟩
      · intro j h1 hj
        have hbitj := hrun' j h1 hj
        have hltj := lt_64_of_testBit hoa64 hbitj
        have hcj := hco j (by omega)
        show cellAt o ((i / 8 : ℕ) + (j : ℤ) * dr) ((i % 8 : ℕ) + (j : ℤ) * dc)
        rw [show ((i / 8 : ℕ) : ℤ) + (j : ℤ) * dr = ((i + j * s) / 8 : ℕ) from by
            rw [hcj.1],
          show ((i % 8 : ℕ) : ℤ) + (j : ℤ) * dc = ((i + j * s) % 8 : ℕ) from by
            rw [hcj.2]]
        exact cellAt_of_idx hltj (hoa_o _ hbitj)
      · have hlt := lt_64_of_testBit hp hpbit'
        have hcj := hco (k + 1) (le_refl _)
        show cellAt p ((i / 8 : ℕ) + ((k : ℕ) + 1 : ℕ) * dr)
          ((i % 8 : ℕ) + ((k : ℕ) + 1 : ℕ) * dc)
        rw [show ((i / 8 : ℕ) : ℤ) + (((k : ℕ) + 1 : ℕ) : ℤ) * dr =
            ((i + (k + 1) * s) / 8 : ℕ) from by rw [hcj.1],
          show ((i % 8 : ℕ) : ℤ) + (((k : ℕ) + 1 : ℕ) : ℤ) * dc =
            ((i + (k + 1) * s) % 8 : ℕ) from by rw [hcj.2]]
        exact cellAt_of_idx hlt hpbit'
    · -- a downward chain at `i + s` would occupy the free cell `i` itself
      rcases (show k = 1 ∨ 2 ≤ k by omega) with hk | hk
      · subst hk
        have hyi : y = i := by omega
        rw [hyi] at hpy
        simp [hpy] at hip
      · obtain ⟨m, rfl⟩ : ∃ m, k = m + 2 := ⟨k - 2, by omega⟩
        have hbit2 := hrun (m + 1) (by omega) (by omega)
        have he : y + (m + 1) * s = i := by
          have e2 : (m + 2) * s = (m + 1) * s + s := by ring
          omega
        rw [he] at hbit2
        simp [hoa_o _ hbit2] at hio

/-- Completeness of one lane, upward direction: a terminating run in the
direction `(dr, dc)` with `8·dr + dc = s` forces the lane's final extension
bit at the move cell `i`, for every iteration count `n ≥ 5`. -/
theorem dir_pos_lane {p o mask s : ℕ} (dr dc : ℤ) {n i : ℕ}
    (hp : p < M64)
    (hsum : 8 * dr + dc = (s : ℤ)) (hdr : -1 ≤ dr ∧ dr ≤ 1) (hdc : -1 ≤ dc ∧ dc ≤ 1)
    (hs : 1 ≤ s)
    (hmask : ∀ z, z < 64 → ((1 ≤ z % 8 ∧ z % 8 ≤ 6) ∨ dc = 0) → mask.testBit z = true)
    (hn : 5 ≤ n) (hi64 : i < 64) {k : ℕ} (hk1 : 1 ≤ k)
    (hrun : ∀ j : ℕ, 1 ≤ j → j ≤ k →
      cellAt o (((i / 8 : ℕ) : ℤ) + j * dr) (((i % 8 : ℕ) : ℤ) + j * dc))
    (hpc : cellAt p (((i / 8 : ℕ) : ℤ) + ((k : ℕ) + 1 : ℕ) * dr)
      (((i % 8 : ℕ) : ℤ) + ((k : ℕ) + 1 : ℕ) * dc)) :
    (shpair (floodN p (mask &&& o) s n) s).testBit i = true := by
  have hIdx : (8 : ℤ) * ((i / 8 : ℕ) : ℤ) + ((i % 8 : ℕ) : ℤ) = (i : ℤ) := by omega
  obtain ⟨hpr0, hpr8, hpc0, hpc8, hpcbit⟩ := hpc
  -- the index of the cell `j` steps along the direction is `i + j·s`
  have hstep : ∀ j : ℕ,
      (8 : ℤ) * (((i / 8 : ℕ) : ℤ) + (j : ℤ) * dr) + (((i % 8 : ℕ) : ℤ) + (j : ℤ) * dc) =
        (i : ℤ) + ((j * s : ℕ) : ℤ) := by
    intro j
    have hc : ((j * s : ℕ) : ℤ) = (j : ℤ) * (s : ℤ) := by push_cast; ring
    rw [hc, ← hsum, ← hIdx]
    ring
  -- mover disc at index `i + (k+1)·s`
  have hpbit' : p.testBit (i + (k + 1) * s) = true := by
    have hz : ((8 : ℤ) * (((i / 8 : ℕ) : ℤ) + (((k : ℕ) + 1 : ℕ) : ℤ) * dr) +
        (((i % 8 : ℕ) : ℤ) + (((k : ℕ) + 1 : ℕ) : ℤ) * dc)).toNat = i + (k + 1) * s := by
      have := hstep (k + 1)
      omega
    rw [← hz]
    exact hpcbit
  -- run cells carry the masked opponent set
  have hoab : ∀ j, 1 ≤ j → j ≤ k → (mask &&& o).testBit (i + j * s) = true := by
    intro j h1 hj
    obtain ⟨z, hz64, hzbit, hzeq, hzr, hzc⟩ := idx_of_cellAt (hrun j h1 hj)
    have hzi : z = i + j * s := by
      have := hstep j
      omega
    have hcol : (1 ≤ z % 8 ∧ z % 8 ≤ 6) ∨ dc = 0 := by
      rcases (show dc = -1 ∨ dc = 0 ∨ dc = 1 from by omega) with hd | hd | hd
      · subst hd
        left
        constructor <;> omega
      · subst hd
        right
        rfl
      · subst hd
        left
        constructor <;> omega
    rw [← hzi, Nat.testBit_and, Bool.and_eq_true]
    exact ⟨hmask z hz64 hcol, hzbit⟩
  have hchain : chainUp p (mask &&& o) s (i + s) k := by
    constructor
    · intro j hj
      have hb := hoab (j + 1) (by omega) (by omega)
      have he : (i + s) + j * s = i + (j + 1) * s := by ring
      rw [he]
      exact hb
    · have he : (i + s) + k * s = i + (k + 1) * s := by ring
      rw [he]
      exact hpbit'
  have hne : ¬(dr = 0 ∧ dc = 0) := by
    rintro ⟨h1, h2⟩
    rw [h1, h2] at hsum
    simp at hsum
    omega
  have hk6 : k ≤ 6 :=
    run_k_le_6 hdr hdc hne (by omega) (by omega) ⟨hpr0, hpr8⟩ ⟨hpc0, hpc8⟩
  rw [shpair_testBit]
  right
  have he : s + i = i + s := by ring
  rw [he]
  exact chainUp_flood n k (i + s) hk1 (by omega) hchain

/-- Completeness of one lane, downward direction: a terminating run in the
direction `(dr, dc)` with `8·dr + dc = -s` forces the lane's final extension
bit at the move cell `i`, for every iteration count `n ≥ 5`. -/
theorem dir_neg_lane {p o mask s : ℕ} (dr dc : ℤ) {n i : ℕ}
    (hp : p < M64) (ho : o < M64)
    (hsum : 8 * dr + dc = -(s : ℤ)) (hdr : -1 ≤ dr ∧ dr ≤ 1) (hdc : -1 ≤ dc ∧ dc ≤ 1)
    (hs : 1 ≤ s)
    (hmask : ∀ z, z < 64 → ((1 ≤ z % 8 ∧ z % 8 ≤ 6) ∨ dc = 0) → mask.testBit z = true)
    (hn : 5 ≤ n) (hi64 : i < 64) {k : ℕ} (hk1 : 1 ≤ k)
    (hrun : ∀ j : ℕ, 1 ≤ j → j ≤ k →
      cellAt o (((i / 8 : ℕ) : ℤ) + j * dr) (((i % 8 : ℕ) : ℤ) + j * dc))
    (hpc : cellAt p (((i / 8 : ℕ) : ℤ) + ((k : ℕ) + 1 : ℕ) * dr)
      (((i % 8 : ℕ) : ℤ) + ((k : ℕ) + 1 : ℕ) * dc)) :
    (shpair (floodN p (mask &&& o) s n) s).testBit i = true := by
  have hIdx : (8 : ℤ) * ((i / 8 : ℕ) : ℤ) + ((i % 8 : ℕ) : ℤ) = (i : ℤ) := by omega
  obtain ⟨hpr0, hpr8, hpc0, hpc8, hpcbit⟩ := hpc
  -- the index of the cell `j` steps along the direction is `i - j·s`
  have hstep : ∀ j : ℕ,
      (8 : ℤ) * (((i / 8 : ℕ) : ℤ) + (j : ℤ) * dr) + (((i % 8 : ℕ) : ℤ) + (j : ℤ) * dc) =
        (i : ℤ) - ((j * s : ℕ) : ℤ) := by
    intro j
    have hc : ((j * s : ℕ) : ℤ) = (j : ℤ) * (s : ℤ) := by push_cast; ring
    rw [hc]
    calc (8 : ℤ) * (((i / 8 : ℕ) : ℤ) + (j : ℤ) * dr) +
          (((i % 8 : ℕ) : ℤ) + (j : ℤ) * dc)
        = ((8 : ℤ) * ((i / 8 : ℕ) : ℤ) + ((i % 8 : ℕ) : ℤ)) + (j : ℤ) * (8 * dr + dc) := by
          ring
      _ = (i : ℤ) + (j : ℤ) * (-(s : ℤ)) := by rw [hIdx, hsum]
      _ = (i : ℤ) - (j : ℤ) * (s : ℤ) := by ring
  -- mover disc at index `y` with `y + (k+1)·s = i`
  obtain ⟨y, hy64, hybit, hyeq, hyr, hyc⟩ := idx_of_cellAt ⟨hpr0, hpr8, hpc0, hpc8, hpcbit⟩
  have hyi : y + (k + 1) * s = i := by
    have := hstep (k + 1)
    omega
  -- run cells carry the masked opponent set
  have hoab : ∀ t, 1 ≤ t → t ≤ k → (mask &&& o).testBit (y + t * s) = true := by
    intro t h1 ht
    obtain ⟨z, hz64, hzbit, hzeq, hzr, hzc⟩ := idx_of_cellAt (hrun (k + 1 - t) (by omega) (by omega))
    have hsplit : (k + 1 - t) * s + t * s = (k + 1) * s := by
      have e : ((k + 1 - t) + t) * s = (k + 1 - t) * s + t * s := by ring
      rw [← e]
      congr 1
      omega
    have hzi : z = y + t * s := by
      have := hstep (k + 1 - t)
      omega
    have hcol : (1 ≤ z % 8 ∧ z % 8 ≤ 6) ∨ dc = 0 := by
      rcases (show dc = -1 ∨ dc = 0 ∨ dc = 1 from by omega) with hd | hd | hd
      · subst hd
        left
        constructor <;> omega
      · subst hd
        right
        rfl
      · subst hd
        left
        constructor <;> omega
    rw [← hzi, Nat.testBit_and, Bool.and_eq_true]
    exact ⟨hmask z hz64 hcol, hzbit⟩
  have hsk : (k + 1) * s = k * s + s := by ring
  have hchain : chainDn p (mask &&& o) s (i - s) k :=
    ⟨y, by omega, hybit, fun t h1 ht => hoab t h1 ht⟩
  have hne : ¬(dr = 0 ∧ dc = 0) := by
    rintro ⟨h1, h2⟩
    rw [h1, h2] at hsum
    simp at hsum
    omega
  have hk6 : k ≤ 6 :=
    run_k_le_6 hdr hdc hne (by omega) (by omega) ⟨hpr0, hpr8⟩ ⟨hpc0, hpc8⟩
  rw [shpair_testBit]
  left
  refine ⟨hi64, by omega, ?_⟩
  exact chainDn_flood (land_lt_M64_right ho) n k (i - s) hk1 (by omega) hchain

/-! ### The full characterisation of `find_moves` -/

/-- The `find_moves` computation with the five-iteration extension loop
generalised to `n` iterations; `n = 5` is the computation every backend
performs. -/
def find_moves_iter (bd : Board) (color : Bool) (n : ℕ) : ℕ :=
  let free_spaces := compl64 (bd.white_bitmap ||| bd.black_bitmap)
  let playing := if color then bd.white_bitmap else bd.black_bitmap
  let opponent := if color then bd.black_bitmap else bd.white_bitmap
  (shpair (floodN playing (Masks.SIDE_COLS_MASK &&& opponent) 1 n) 1 |||
   shpair (floodN playing (Masks.SIDE_COLS_MASK &&& opponent) 7 n) 7 |||
   shpair (floodN playing (Masks.NO_COL_MASK &&& opponent) 8 n) 8 |||
   shpair (floodN playing (Masks.SIDE_COLS_MASK &&& opponent) 9 n) 9) &&& free_spaces

theorem find_moves_iter_five (bd : Board) (color : Bool) :
    find_moves_iter bd color 5 = RvvA.find_moves bd color := rfl

theorem side_col_of_oa {o z : ℕ} (hz : (Masks.SIDE_COLS_MASK &&& o).testBit z = true) :
    1 ≤ z % 8 ∧ z % 8 ≤ 6 := by
  rw [Nat.testBit_and, Bool.and_eq_true] at hz
  exact ((side_mask_testBit z).mp hz.1).2

/-- The central characterisation: for in-range disjoint occupancy sets, bit `i`
of the flood computation with any `n ≥ 5` extension iterations is set exactly
when cell `i` is free and carries a legal move of `p` against `o`. -/
theorem core_moves_testBit {p o : ℕ} (hp : p < M64) (ho : o < M64)
    (hdisj : ∀ t, ¬(p.testBit t = true ∧ o.testBit t = true)) {n : ℕ} (hn : 5 ≤ n)
    (i : ℕ) :
    ((shpair (floodN p (Masks.SIDE_COLS_MASK &&& o) 1 n) 1 |||
      shpair (floodN p (Masks.SIDE_COLS_MASK &&& o) 7 n) 7 |||
      shpair (floodN p (Masks.NO_COL_MASK &&& o) 8 n) 8 |||
      shpair (floodN p (Masks.SIDE_COLS_MASK &&& o) 9 n) 9) &&&
        compl64 (p ||| o)).testBit i = true ↔
      ((compl64 (p ||| o)).testBit i = true ∧ legalIdx p o i) := by
  have hpo : p ||| o < M64 := Nat.or_lt_two_pow hp ho
  have hfree_char : (compl64 (p ||| o)).testBit i = true ↔
      i < 64 ∧ p.testBit i = false ∧ o.testBit i = false := by
    rw [compl64_testBit hpo i]
    constructor
    · rintro ⟨h64, hb⟩
      rw [Nat.testBit_or, Bool.or_eq_false_iff] at hb
      exact ⟨h64, hb.1, hb.2⟩
    · rintro ⟨h64, hbp, hbo⟩
      refine ⟨h64, ?_⟩
      rw [Nat.testBit_or, hbp, hbo]
      rfl
  rw [Nat.testBit_and, Bool.and_eq_true]
  constructor
  · rintro ⟨hbig, hfree⟩
    refine ⟨hfree, ?_⟩
    obtain ⟨hi64, hip, hio⟩ := hfree_char.mp hfree
    have hbig' : (shpair (floodN p (Masks.SIDE_COLS_MASK &&& o) 1 n) 1).testBit i = true ∨
        (shpair (floodN p (Masks.SIDE_COLS_MASK &&& o) 7 n) 7).testBit i = true ∨
        (shpair (floodN p (Masks.NO_COL_MASK &&& o) 8 n) 8).testBit i = true ∨
        (shpair (floodN p (Masks.SIDE_COLS_MASK &&& o) 9 n) 9).testBit i = true := by
      simpa [Nat.testBit_or, Bool.or_eq_true, or_assoc] using hbig
    have hcolS : ∀ dc : ℤ, ∀ z, (Masks.SIDE_COLS_MASK &&& o).testBit z = true →
        ((1 ≤ z % 8 ∧ z % 8 ≤ 6) ∨ dc = 0) := fun dc z hz => Or.inl (side_col_of_oa hz)
    have hcolN : ∀ z, (Masks.NO_COL_MASK &&& o).testBit z = true →
        ((1 ≤ z % 8 ∧ z % 8 ≤ 6) ∨ (0 : ℤ) = 0) := fun z hz => Or.inr rfl
    rcases hbig' with hb | hb | hb | hb
    · exact lane_sound 0 1 hp ho hdisj (by norm_num) (by norm_num)
        (by decide) (by decide) (hcolS 1) hip hio hb
    · exact lane_sound 1 (-1) hp ho hdisj (by norm_num) (by norm_num)
        (by decide) (by decide) (hcolS (-1)) hip hio hb
    · exact lane_sound 1 0 hp ho hdisj (by norm_num) (by norm_num)
        (by decide) (by decide) hcolN hip hio hb
    · exact lane_sound 1 1 hp ho hdisj (by norm_num) (by norm_num)
        (by decide) (by decide) (hcolS 1) hip hio hb
  · rintro ⟨hfree, hlegal⟩
    refine ⟨?_, hfree⟩
    obtain ⟨hi64, hip, hio⟩ := hfree_char.mp hfree
    obtain ⟨d, hdir, k, hk1, hrun, hpc⟩ := hlegal
    have hmaskS : ∀ dc : ℤ, dc ≠ 0 → ∀ z, z < 64 →
        ((1 ≤ z % 8 ∧ z % 8 ≤ 6) ∨ dc = 0) → Masks.SIDE_COLS_MASK.testBit z = true := by
      intro dc hdc0 z hz hcc
      exact (side_mask_testBit z).mpr ⟨hz, hcc.resolve_right hdc0⟩
    have hmaskN : ∀ dc : ℤ, ∀ z, z < 64 →
        ((1 ≤ z % 8 ∧ z % 8 ≤ 6) ∨ dc = 0) → Masks.NO_COL_MASK.testBit z = true := by
      intro dc z hz hcc
      exact (no_mask_testBit z).mpr hz
    have hgoal : ∀ g1 g7 g8 g9 : Bool,
        (g1 = true ∨ g7 = true ∨ g8 = true ∨ g9 = true) →
        (g1 || g7 || g8 || g9) = true := by
      intro g1 g7 g8 g9 h
      rcases h with h | h | h | h <;> simp [h]
    rw [Nat.testBit_or, Nat.testBit_or, Nat.testBit_or]
    apply hgoal
    have hd8 : d = ((0 : ℤ), (1 : ℤ)) ∨ d = (0, -1) ∨ d = (1, -1) ∨ d = (-1, 1) ∨
        d = (1, 0) ∨ d = (-1, 0) ∨ d = (1, 1) ∨ d = (-1, -1) := by
      simpa [dirs8] using hdir
    obtain ⟨dr, dc⟩ := d
    rcases hd8 with h | h | h | h | h | h | h | h <;>
      rw [Prod.mk.injEq] at h <;> obtain ⟨rfl, rfl⟩ := h
    · exact Or.inl (dir_pos_lane 0 1 hp (by norm_num) (by norm_num) (by norm_num)
        (by norm_num) (hmaskS 1 (by norm_num)) hn hi64 hk1 hrun hpc)
    · exact Or.inl (dir_neg_lane 0 (-1) hp ho (by norm_num) (by norm_num) (by norm_num)
        (by norm_num) (hmaskS (-1) (by norm_num)) hn hi64 hk1 hrun hpc)
    · exact Or.inr (Or.inl (dir_pos_lane 1 (-1) hp (by norm_num) (by norm_num) (by norm_num)
        (by norm_num) (hmaskS (-1) (by norm_num)) hn hi64 hk1 hrun hpc))
    · exact Or.inr (Or.inl (dir_neg_lane (-1) 1 hp ho (by norm_num) (by norm_num) (by norm_num)
        (by norm_num) (hmaskS 1 (by norm_num)) hn hi64 hk1 hrun hpc))
    · exact Or.inr (Or.inr (Or.inl (dir_pos_lane 1 0 hp (by norm_num) (by norm_num)
        (by norm_num) (by norm_num) (hmaskN 0) hn hi64 hk1 hrun hpc)))
    · exact Or.inr (Or.inr (Or.inl (dir_neg_lane (-1) 0 hp ho (by norm_num) (by norm_num)
        (by norm_num) (by norm_num) (hmaskN 0) hn hi64 hk1 hrun hpc)))
    · exact Or.inr (Or.inr (Or.inr (dir_pos_lane 1 1 hp (by norm_num) (by norm_num)
        (by norm_num) (by norm_num) (hmaskS 1 (by norm_num)) hn hi64 hk1 hrun hpc)))
    · exact Or.inr (Or.inr (Or.inr (dir_neg_lane (-1) (-1) hp ho (by norm_num) (by norm_num)
        (by norm_num) (by norm_num) (hmaskS (-1) (by norm_num)) hn hi64 hk1 hrun hpc)))

/-- The mover and opponent sets selected by a color. -/
def moverOf (bd : Board) (color : Bool) : ℕ :=
  if color then bd.white_bitmap else bd.black_bitmap

/-- The opponent set selected by a color. -/
def oppOf (bd : Board) (color : Bool) : ℕ :=
  if color then bd.black_bitmap else bd.white_bitmap

theorem bitmaps_not_both {bd : Board} (hdisj : bd.white_bitmap &&& bd.black_bitmap = 0)
    (color : Bool) :
    ∀ t, ¬((moverOf bd color).testBit t = true ∧ (oppOf bd color).testBit t = true) := by
  intro t
  cases color
  · rintro ⟨h1, h2⟩
    exact land_zero_not_both hdisj t ⟨h2, h1⟩
  · rintro ⟨h1, h2⟩
    exact land_zero_not_both hdisj t ⟨h1, h2⟩

theorem find_moves_iter_testBit {bd : Board}
    (hw : bd.white_bitmap < M64) (hb : bd.black_bitmap < M64)
    (hdisj : bd.white_bitmap &&& bd.black_bitmap = 0) (color : Bool) {n : ℕ}
    (hn : 5 ≤ n) (i : ℕ) :
    (find_moves_iter bd color n).testBit i = true ↔
      ((compl64 (bd.white_bitmap ||| bd.black_bitmap)).testBit i = true ∧
        legalIdx (moverOf bd color) (oppOf bd color) i) := by
  have hnb := bitmaps_not_both hdisj color
  cases color
  · have hc : bd.white_bitmap ||| bd.black_bitmap =
        bd.black_bitmap ||| bd.white_bitmap := Nat.lor_comm _ _
    have h := core_moves_testBit hb hw hnb hn i
    rw [← hc] at h
    exact h
  · exact core_moves_testBit hw hb hnb hn i

theorem testBit_eq_of_iff {x y i : ℕ} (h : x.testBit i = true ↔ y.testBit i = true) :
    x.testBit i = y.testBit i := by
  cases hx : x.testBit i <;> cases hy : y.testBit i <;> simp_all

theorem eq_zero_iff_no_bits {x : ℕ} : x = 0 ↔ ∀ i, x.testBit i = false := by
  constructor
  · rintro rfl i
    exact Nat.zero_testBit i
  · intro h
    exact Nat.eq_of_testBit_eq fun i => by rw [h i, Nat.zero_testBit]

/-- **C2** Functional correctness of `find_moves`: for every in-range board
state with disjoint occupancy sets and every color, the returned mask — a pure
function of the inputs — has a bit set exactly at the empty cells at which
some contiguous run of at least one opponent disc starts next to the cell, in
one of the 8 directions, and terminates at a disc of the moving color; in
particular the result is a subset of the empty cells, and it is zero exactly
when the side to move has no legal move (pass). -/
theorem claim_C2 {bd : Board} (hw : bd.white_bitmap < M64) (hb : bd.black_bitmap < M64)
    (hdisj : bd.white_bitmap &&& bd.black_bitmap = 0) (color : Bool) :
    (∀ i, (RvvU.find_moves bd color).testBit i = true ↔
      ((compl64 (bd.white_bitmap ||| bd.black_bitmap)).testBit i = true ∧
        legalIdx (moverOf bd color) (oppOf bd color) i)) ∧
    (RvvU.find_moves bd color = 0 ↔
      ¬∃ i, (compl64 (bd.white_bitmap ||| bd.black_bitmap)).testBit i = true ∧
        legalIdx (moverOf bd color) (oppOf bd color) i) := by
  have hU : RvvU.find_moves bd color = find_moves_iter bd color 5 := by
    rw [find_moves_iter_five, find_moves_A_eq_U]
  have hchar := fun i => find_moves_iter_testBit hw hb hdisj color (le_refl 5) i
  constructor
  · intro i
    rw [hU]
    exact hchar i
  · rw [hU]
    constructor
    · intro h0
      rintro ⟨i, hi⟩
      have := (hchar i).mpr hi
      rw [eq_zero_iff_no_bits.mp h0 i] at this
      exact Bool.false_ne_true this
    · intro hno
      rw [eq_zero_iff_no_bits]
      intro i
      by_contra hbit
      rw [Bool.not_eq_false] at hbit
      exact hno ⟨i, (hchar i).mp hbit⟩

/-- Witness for C2 at the initial position, white to move. -/
theorem claim_C2_witness :
    (∀ i, (RvvU.find_moves ⟨2 ^ 27 + 2 ^ 36, 2 ^ 28 + 2 ^ 35⟩ true).testBit i = true ↔
      ((compl64 ((2 ^ 27 + 2 ^ 36) ||| (2 ^ 28 + 2 ^ 35))).testBit i = true ∧
        legalIdx (moverOf ⟨2 ^ 27 + 2 ^ 36, 2 ^ 28 + 2 ^ 35⟩ true)
          (oppOf ⟨2 ^ 27 + 2 ^ 36, 2 ^ 28 + 2 ^ 35⟩ true) i)) ∧
    (RvvU.find_moves ⟨2 ^ 27 + 2 ^ 36, 2 ^ 28 + 2 ^ 35⟩ true = 0 ↔
      ¬∃ i, (compl64 ((2 ^ 27 + 2 ^ 36) ||| (2 ^ 28 + 2 ^ 35))).testBit i = true ∧
        legalIdx (moverOf ⟨2 ^ 27 + 2 ^ 36, 2 ^ 28 + 2 ^ 35⟩ true)
          (oppOf ⟨2 ^ 27 + 2 ^ 36, 2 ^ 28 + 2 ^ 35⟩ true) i) :=
  claim_C2 (by decide) (by decide) (by decide) true

/-- **C8** Bounded flood scan is complete: for every in-range board state with
disjoint occupancy sets and every color, running the directional extension
step any number `n ≥ 5` of times — in particular one further iteration, and in
the limit the fixpoint of the extension step — returns exactly the move mask
of the shipped five-iteration computation. -/
theorem claim_C8 {bd : Board} (hw : bd.white_bitmap < M64) (hb : bd.black_bitmap < M64)
    (hdisj : bd.white_bitmap &&& bd.black_bitmap = 0) (color : Bool) :
    ∀ n, 5 ≤ n → find_moves_iter bd color n = RvvA.find_moves bd color := by
  intro n hn
  rw [← find_moves_iter_five]
  apply Nat.eq_of_testBit_eq
  intro i
  apply testBit_eq_of_iff
  rw [find_moves_iter_testBit hw hb hdisj color hn i,
    find_moves_iter_testBit hw hb hdisj color (le_refl 5) i]

/-- Witness for C8 at the initial position, black to move, one extra
iteration. -/
theorem claim_C8_witness :
    find_moves_iter ⟨2 ^ 27 + 2 ^ 36, 2 ^ 28 + 2 ^ 35⟩ false 6 =
      RvvA.find_moves ⟨2 ^ 27 + 2 ^ 36, 2 ^ 28 + 2 ^ 35⟩ false :=
  claim_C8 (by decide) (by decide) (by decide) false 6 (by decide)

/-! ### The capture flood of `play_move`

The left accumulator of one lane grows the contiguous masked-opponent prefix
run above the move bit, one cell per iteration; the right accumulator grows
the run below it.
-/

/-- The left accumulator of one `play_move` lane after `n` loop iterations. -/
def playLN (move oa s n : ℕ) : ℕ := ((play_ext oa s)^[n] (play_seed move oa s)).1

/-- The right accumulator of one `play_move` lane after `n` loop iterations. -/
def playRN (move oa s n : ℕ) : ℕ := ((play_ext oa s)^[n] (play_seed move oa s)).2

theorem playLN_zero (move oa s : ℕ) :
    playLN move oa s 0 = ((move <<< s) % M64) &&& oa := rfl

theorem playRN_zero (move oa s : ℕ) :
    playRN move oa s 0 = (move >>> s) &&& oa := rfl

theorem playLN_succ (move oa s n : ℕ) :
    playLN move oa s (n + 1) =
      (playLN move oa s n ||| ((playLN move oa s n <<< s) % M64)) &&& oa := by
  rw [playLN, Function.iterate_succ_apply']
  rfl

theorem playRN_succ (move oa s n : ℕ) :
    playRN move oa s (n + 1) =
      (playRN move oa s n ||| (playRN move oa s n >>> s)) &&& oa := by
  rw [playRN, Function.iterate_succ_apply']
  rfl

theorem playLN_subset_oa {move oa s n x : ℕ}
    (h : (playLN move oa s n).testBit x = true) : oa.testBit x = true := by
  induction n with
  | zero =>
    rw [playLN_zero, Nat.testBit_and, Bool.and_eq_true] at h
    exact h.2
  | succ n IH =>
    rw [playLN_succ, Nat.testBit_and, Bool.and_eq_true] at h
    exact h.2

theorem playRN_subset_oa {move oa s n x : ℕ}
    (h : (playRN move oa s n).testBit x = true) : oa.testBit x = true := by
  induction n with
  | zero =>
    rw [playRN_zero, Nat.testBit_and, Bool.and_eq_true] at h
    exact h.2
  | succ n IH =>
    rw [playRN_succ, Nat.testBit_and, Bool.and_eq_true] at h
    exact h.2

/-- The left accumulator holds exactly the prefix run of masked opponent cells
above the (single-bit) move, truncated to length `n + 1`. -/
theorem playLN_testBit {oa s e : ℕ} (hoa : oa < M64) (hs : 1 ≤ s) :
    ∀ n x, (playLN (2 ^ e) oa s n).testBit x = true ↔
      ∃ m, 1 ≤ m ∧ m ≤ n + 1 ∧ x = e + m * s ∧
        ∀ t, 1 ≤ t → t ≤ m → oa.testBit (e + t * s) = true := by
  intro n
  induction n with
  | zero =>
    intro x
    rw [playLN_zero]
    have hM : M64 = 2 ^ 64 := rfl
    rw [Nat.testBit_and, Bool.and_eq_true, hM]
    simp only [Nat.testBit_mod_two_pow, Nat.testBit_shiftLeft, Bool.and_eq_true,
      decide_eq_true_eq, Nat.testBit_two_pow]
    constructor
    · rintro ⟨⟨h64, hsle, he⟩, hoax⟩
      refine ⟨1, le_refl 1, by omega, by omega, ?_⟩
      intro t h1 ht
      have ht1 : t = 1 := by omega
      subst ht1
      have hx : e + 1 * s = x := by omega
      rw [hx]
      exact hoax
    · rintro ⟨m, h1, hm, hx, hrun⟩
      have hm1 : m = 1 := by omega
      subst hm1
      have hoax := hrun 1 (by omega) (by omega)
      rw [← hx] at hoax
      refine ⟨⟨lt_64_of_testBit hoa hoax, by omega, by omega⟩, hoax⟩
  | succ n IH =>
    intro x
    rw [playLN_succ]
    have hM : M64 = 2 ^ 64 := rfl
    rw [Nat.testBit_and, Bool.and_eq_true, Nat.testBit_or, Bool.or_eq_true, hM]
    simp only [Nat.testBit_mod_two_pow, Nat.testBit_shiftLeft, Bool.and_eq_true,
      decide_eq_true_eq]
    constructor
    · rintro ⟨hleft | ⟨h64, hsle, hbit⟩, hoax⟩
      · obtain ⟨m, h1, hm, hx, hrun⟩ := (IH x).mp hleft
        exact ⟨m, h1, by omega, hx, hrun⟩
      · obtain ⟨m, h1, hm, hx, hrun⟩ := (IH (x - s)).mp hbit
        refine ⟨m + 1, by omega, by omega, ?_, ?_⟩
        · have e2 : (m + 1) * s = m * s + s := by ring
          omega
        · intro t h1t ht
          rcases le_or_lt t m with htm | htm
          · exact hrun t h1t htm
          · have ht1 : t = m + 1 := by omega
            subst ht1
            have hx2 : e + (m + 1) * s = x := by
              have e2 : (m + 1) * s = m * s + s := by ring
              omega
            rw [hx2]
            exact hoax
    · rintro ⟨m, h1, hm, hx, hrun⟩
      have hoax : oa.testBit x = true := by
        have := hrun m (by omega) (by omega)
        rwa [← hx] at this
      refine ⟨?_, hoax⟩
      rcases le_or_lt m (n + 1) with hmn | hmn
      · exact Or.inl ((IH x).mpr ⟨m, h1, hmn, hx, hrun⟩)
      · have hm2 : m = n + 2 := by omega
        subst hm2
        have e2 : (n + 2) * s = (n + 1) * s + s := by ring
        refine Or.inr ⟨lt_64_of_testBit hoa hoax, by omega, ?_⟩
        apply (IH (x - s)).mpr
        exact ⟨n + 1, by omega, by omega, by omega, fun t h1t ht => hrun t h1t (by omega)⟩

/-- The right accumulator holds exactly the prefix run of masked opponent
cells below the (single-bit) move, truncated to length `n + 1`. -/
theorem playRN_testBit {oa s e : ℕ} (hs : 1 ≤ s) :
    ∀ n x, (playRN (2 ^ e) oa s n).testBit x = true ↔
      ∃ m, 1 ≤ m ∧ m ≤ n + 1 ∧ e = x + m * s ∧
        ∀ u, u < m → oa.testBit (x + u * s) = true := by
  intro n
  induction n with
  | zero =>
    intro x
    rw [playRN_zero]
    rw [Nat.testBit_and, Bool.and_eq_true]
    simp only [Nat.testBit_shiftRight, Nat.testBit_two_pow, decide_eq_true_eq]
    constructor
    · rintro ⟨he, hoax⟩
      refine ⟨1, le_refl 1, by omega, by omega, ?_⟩
      intro u hu
      have hu0 : u = 0 := by omega
      subst hu0
      simpa using hoax
    · rintro ⟨m, h1, hm, hx, hrun⟩
      have hm1 : m = 1 := by omega
      subst hm1
      have hoax := hrun 0 (by omega)
      refine ⟨by omega, ?_⟩
      simpa using hoax
  | succ n IH =>
    intro x
    rw [playRN_succ]
    rw [Nat.testBit_and, Bool.and_eq_true, Nat.testBit_or, Bool.or_eq_true]
    simp only [Nat.testBit_shiftRight]
    constructor
    · rintro ⟨hleft | hbit, hoax⟩
      · obtain ⟨m, h1, hm, hx, hrun⟩ := (IH x).mp hleft
        exact ⟨m, h1, by omega, hx, hrun⟩
      · obtain ⟨m, h1, hm, hx, hrun⟩ := (IH (s + x)).mp hbit
        refine ⟨m + 1, by omega, by omega, ?_, ?_⟩
        · have e2 : (m + 1) * s = m * s + s := by ring
          omega
        · intro u hu
          rcases Nat.eq_zero_or_pos u with hu0 | hu0
          · subst hu0
            simpa using hoax
          · obtain ⟨u', rfl⟩ : ∃ u', u = u' + 1 := ⟨u - 1, by omega⟩
            have he : x + (u' + 1) * s = (s + x) + u' * s := by ring
            rw [he]
            exact hrun u' (by omega)
    · rintro ⟨m, h1, hm, hx, hrun⟩
      have hoax : oa.testBit x = true := by
        simpa using hrun 0 (by omega)
      refine ⟨?_, hoax⟩
      rcases le_or_lt m (n + 1) with hmn | hmn
      · exact Or.inl ((IH x).mpr ⟨m, h1, hmn, hx, hrun⟩)
      · have hm2 : m = n + 2 := by omega
        subst hm2
        refine Or.inr ?_
        apply (IH (s + x)).mpr
        refine ⟨n + 1, by omega, by omega, ?_, ?_⟩
        · have e2 : (n + 2) * s = (n + 1) * s + s := by ring
          omega
        · intro u hu
          have he : (s + x) + u * s = x + (u + 1) * s := by ring
          rw [he]
          exact hrun (u + 1) (by omega)

theorem land_ne_zero_iff {x y : ℕ} :
    x &&& y ≠ 0 ↔ ∃ t, x.testBit t = true ∧ y.testBit t = true := by
  rw [ne_zero_iff_exists_testBit]
  constructor
  · rintro ⟨t, ht⟩
    rw [Nat.testBit_and, Bool.and_eq_true] at ht
    exact ⟨t, ht⟩
  · rintro ⟨t, h1, h2⟩
    refine ⟨t, ?_⟩
    rw [Nat.testBit_and, h1, h2]
    rfl

/-- The validated capture contribution of one lane's left accumulator:
kept exactly when the next probe `l₅ << s` meets a mover disc. -/
def laneCapL (playing move oa s : ℕ) : ℕ :=
  if ((playLN move oa s 5 <<< s) % M64) &&& playing ≠ 0 then playLN move oa s 6 else 0

/-- The validated capture contribution of one lane's right accumulator. -/
def laneCapR (playing move oa s : ℕ) : ℕ :=
  if (playRN move oa s 5 >>> s) &&& playing ≠ 0 then playRN move oa s 6 else 0

/-- The full capture set computed by `play_move`: the or of the eight
validated lane contributions. -/
def playCapture (playing opponent move : ℕ) : ℕ :=
  (laneCapL playing move (Masks.SIDE_COLS_MASK &&& opponent) 1 |||
   laneCapR playing move (Masks.SIDE_COLS_MASK &&& opponent) 1) |||
  (laneCapL playing move (Masks.SIDE_COLS_MASK &&& opponent) 7 |||
   laneCapR playing move (Masks.SIDE_COLS_MASK &&& opponent) 7) |||
  (laneCapL playing move (Masks.NO_COL_MASK &&& opponent) 8 |||
   laneCapR playing move (Masks.NO_COL_MASK &&& opponent) 8) |||
  (laneCapL playing move (Masks.SIDE_COLS_MASK &&& opponent) 9 |||
   laneCapR playing move (Masks.SIDE_COLS_MASK &&& opponent) 9)

/-- `play_move` in terms of the capture set. -/
theorem play_move_A_spec (bd : Board) (color : Bool) (move : ℕ) :
    RvvA.play_move bd color move =
      (if color then
        Board.mk ((moverOf bd color ||| move) |||
            playCapture (moverOf bd color) (oppOf bd color) move)
          (oppOf bd color ^^^ playCapture (moverOf bd color) (oppOf bd color) move)
      else
        Board.mk (oppOf bd color ^^^ playCapture (moverOf bd color) (oppOf bd color) move)
          ((moverOf bd color ||| move) |||
            playCapture (moverOf bd color) (oppOf bd color) move)) := by
  cases color <;>
  · simp only [RvvA.play_move, playCapture, laneCapL, laneCapR, play_lane, playLN, playRN,
      moverOf, oppOf, Bool.false_eq_true, if_false, if_true, ite_lor_shift,
      ← Function.iterate_succ_apply']
    simp only [Nat.zero_or, Nat.lor_assoc]

/-- Cell `x` is captured, from the destination `(r, c)`, in direction
`(dr, dc)`: it lies on a contiguous run of `k ≥ 1` opponent discs starting
next to the destination and terminating at a mover disc. -/
def capturedDir (p o : ℕ) (r c dr dc : ℤ) (x : ℕ) : Prop :=
  ∃ k : ℕ, 1 ≤ k ∧
    (∀ j : ℕ, 1 ≤ j → j ≤ k → cellAt o (r + j * dr) (c + j * dc)) ∧
    cellAt p (r + ((k : ℕ) + 1 : ℕ) * dr) (c + ((k : ℕ) + 1 : ℕ) * dc) ∧
    ∃ j : ℕ, 1 ≤ j ∧ j ≤ k ∧ (x : ℤ) = 8 * (r + j * dr) + (c + j * dc)

/-- Cell `x` is captured by the move at cell `e` in some of the 8 directions. -/
def capturedSpec (p o e x : ℕ) : Prop :=
  ∃ d ∈ dirs8, capturedDir p o ((e / 8 : ℕ) : ℤ) ((e % 8 : ℕ) : ℤ) d.1 d.2 x

/-- The left (upward) capture contribution of a lane is exactly the set of
cells captured in the lane's upward direction `(dr, dc)`, `8·dr + dc = s`. -/
theorem laneCapL_testBit {p o mask : ℕ} (s : ℕ) (dr dc : ℤ) {e : ℕ}
    (hp : p < M64) (ho : o < M64)
    (hdisj : ∀ t, ¬(p.testBit t = true ∧ o.testBit t = true))
    (hsum : 8 * dr + dc = (s : ℤ)) (hdr : -1 ≤ dr ∧ dr ≤ 1) (hdc : -1 ≤ dc ∧ dc ≤ 1)
    (hs : 1 ≤ s)
    (hmask : ∀ z, z < 64 → ((1 ≤ z % 8 ∧ z % 8 ≤ 6) ∨ dc = 0) → mask.testBit z = true)
    (hcol : ∀ z, (mask &&& o).testBit z = true → ((1 ≤ z % 8 ∧ z % 8 ≤ 6) ∨ dc = 0))
    (he64 : e < 64) (x : ℕ) :
    (laneCapL p (2 ^ e) (mask &&& o) s).testBit x = true ↔
      capturedDir p o ((e / 8 : ℕ) : ℤ) ((e % 8 : ℕ) : ℤ) dr dc x := by
  have hoa64 : mask &&& o < M64 := land_lt_M64_right ho
  have hoa_o : ∀ t, (mask &&& o).testBit t = true → o.testBit t = true := by
    intro t ht
    rw [Nat.testBit_and, Bool.and_eq_true] at ht
    exact ht.2
  have hIdx : (8 : ℤ) * ((e / 8 : ℕ) : ℤ) + ((e % 8 : ℕ) : ℤ) = (e : ℤ) := by omega
  have hstep : ∀ j : ℕ,
      (8 : ℤ) * (((e / 8 : ℕ) : ℤ) + (j : ℤ) * dr) + (((e % 8 : ℕ) : ℤ) + (j : ℤ) * dc) =
        (e : ℤ) + ((j * s : ℕ) : ℤ) := by
    intro j
    have hcst : ((j * s : ℕ) : ℤ) = (j : ℤ) * (s : ℤ) := by push_cast; ring
    rw [hcst, ← hsum, ← hIdx]
    ring
  rw [laneCapL]
  constructor
  · intro hx
    by_cases hcond : ((playLN (2 ^ e) (mask &&& o) s 5 <<< s) % M64) &&& p ≠ 0
    swap
    · rw [if_neg hcond] at hx
      simp at hx
    rw [if_pos hcond] at hx
    obtain ⟨z, hz1, hzp⟩ := land_ne_zero_iff.mp hcond
    have hM : M64 = 2 ^ 64 := rfl
    rw [hM, Nat.testBit_mod_two_pow, Bool.and_eq_true, Nat.testBit_shiftLeft,
      Bool.and_eq_true] at hz1
    have hz64 := hz1.1
    have hzs := hz1.2.1
    have hz5 := hz1.2.2
    rw [decide_eq_true_eq] at hz64 hzs
    obtain ⟨m, hm1, hm6, hzm, hrun⟩ := (playLN_testBit hoa64 hs 5 (z - s)).mp hz5
    have hzval : z = e + (m + 1) * s := by
      have e2 : (m + 1) * s = m * s + s := by ring
      omega
    obtain ⟨m', hm'1, hm'7, hxm, hrun'⟩ := (playLN_testBit hoa64 hs 6 x).mp hx
    have hm'm : m' ≤ m := by
      by_contra hgt
      have hbit := hrun' (m + 1) (by omega) (by omega)
      rw [← hzval] at hbit
      exact hdisj z ⟨hzp, hoa_o z hbit⟩
    have hco := run_coords hsum hdc hm1 hcol hrun
    refine ⟨m, hm1, ?_, ?_, m', hm'1, hm'm, ?_⟩
    · intro j h1 hj
      have hbitj := hrun j h1 hj
      have hltj := lt_64_of_testBit hoa64 hbitj
      have hcj := hco j (by omega)
      rw [show ((e / 8 : ℕ) : ℤ) + (j : ℤ) * dr = ((e + j * s) / 8 : ℕ) from by
          rw [hcj.1],
        show ((e % 8 : ℕ) : ℤ) + (j : ℤ) * dc = ((e + j * s) % 8 : ℕ) from by
          rw [hcj.2]]
      exact cellAt_of_idx hltj (hoa_o _ hbitj)
    · have hzlt : z < 64 := lt_64_of_testBit hp hzp
      have hcj := hco (m + 1) (le_refl _)
      rw [← hzval] at hcj
      rw [show ((e / 8 : ℕ) : ℤ) + (((m : ℕ) + 1 : ℕ) : ℤ) * dr = ((z / 8 : ℕ) : ℤ) from by
          rw [hcj.1],
        show ((e % 8 : ℕ) : ℤ) + (((m : ℕ) + 1 : ℕ) : ℤ) * dc = ((z % 8 : ℕ) : ℤ) from by
          rw [hcj.2]]
      exact cellAt_of_idx hzlt hzp
    · have hcx := hco m' (by omega)
      rw [← hxm] at hcx
      have hx64 : x < 64 := lt_64_of_testBit hoa64 (by
        have := hrun' m' (by omega) (by omega)
        rwa [← hxm] at this)
      omega
  · rintro ⟨k, hk1, hrunc, hpc, j, hj1, hjk, hxid⟩
    obtain ⟨hpr0, hpr8, hpc0, hpc8, hpcbit⟩ := hpc
    have hpbit' : p.testBit (e + (k + 1) * s) = true := by
      have hz : ((8 : ℤ) * (((e / 8 : ℕ) : ℤ) + (((k : ℕ) + 1 : ℕ) : ℤ) * dr) +
          (((e % 8 : ℕ) : ℤ) + (((k : ℕ) + 1 : ℕ) : ℤ) * dc)).toNat = e + (k + 1) * s := by
        have := hstep (k + 1)
        omega
      rw [← hz]
      exact hpcbit
    have hoab : ∀ t, 1 ≤ t → t ≤ k → (mask &&& o).testBit (e + t * s) = true := by
      intro t h1 ht
      obtain ⟨z, hz64, hzbit, hzeq, hzr, hzc⟩ := idx_of_cellAt (hrunc t h1 ht)
      have hzi : z = e + t * s := by
        have := hstep t
        omega
      have hcolz : (1 ≤ z % 8 ∧ z % 8 ≤ 6) ∨ dc = 0 := by
        rcases (show dc = -1 ∨ dc = 0 ∨ dc = 1 from by omega) with hd | hd | hd
        · subst hd
          left
          constructor <;> omega
        · subst hd
          right
          rfl
        · subst hd
          left
          constructor <;> omega
      rw [← hzi, Nat.testBit_and, Bool.and_eq_true]
      exact ⟨hmask z hz64 hcolz, hzbit⟩
    have hne : ¬(dr = 0 ∧ dc = 0) := by
      rintro ⟨h1, h2⟩
      rw [h1, h2] at hsum
      simp at hsum
      omega
    have hk6 : k ≤ 6 :=
      run_k_le_6 hdr hdc hne (by omega) (by omega) ⟨hpr0, hpr8⟩ ⟨hpc0, hpc8⟩
    have hzlt : e + (k + 1) * s < 64 := lt_64_of_testBit hp hpbit'
    have hcond : ((playLN (2 ^ e) (mask &&& o) s 5 <<< s) % M64) &&& p ≠ 0 := by
      apply land_ne_zero_iff.mpr
      refine ⟨e + (k + 1) * s, ?_, hpbit'⟩
      have hM : M64 = 2 ^ 64 := rfl
      rw [hM, Nat.testBit_mod_two_pow, Bool.and_eq_true, Nat.testBit_shiftLeft,
        Bool.and_eq_true]
      have e2 : (k + 1) * s = k * s + s := by ring
      refine ⟨by simp [hzlt], by simp; omega, ?_⟩
      apply (playLN_testBit hoa64 hs 5 _).mpr
      exact ⟨k, hk1, by omega, by omega, hoab⟩
    rw [if_pos hcond]
    apply (playLN_testBit hoa64 hs 6 x).mpr
    refine ⟨j, hj1, by omega, ?_, fun t h1 ht => hoab t h1 (by omega)⟩
    have := hstep j
    omega

/-- The right (downward) capture contribution of a lane is exactly the set of
cells captured in the lane's downward direction `(dr, dc)`, `8·dr + dc = -s`. -/
theorem laneCapR_testBit {p o mask : ℕ} (s : ℕ) (dr dc : ℤ) {e : ℕ}
    (hp : p < M64) (ho : o < M64)
    (hdisj : ∀ t, ¬(p.testBit t = true ∧ o.testBit t = true))
    (hsum : 8 * dr + dc = -(s : ℤ)) (hdr : -1 ≤ dr ∧ dr ≤ 1) (hdc : -1 ≤ dc ∧ dc ≤ 1)
    (hs : 1 ≤ s)
    (hmask : ∀ z, z < 64 → ((1 ≤ z % 8 ∧ z % 8 ≤ 6) ∨ dc = 0) → mask.testBit z = true)
    (hcol : ∀ z, (mask &&& o).testBit z = true → ((1 ≤ z % 8 ∧ z % 8 ≤ 6) ∨ dc = 0))
    (he64 : e < 64) (x : ℕ) :
    (laneCapR p (2 ^ e) (mask &&& o) s).testBit x = true ↔
      capturedDir p o ((e / 8 : ℕ) : ℤ) ((e % 8 : ℕ) : ℤ) dr dc x := by
  have hoa64 : mask &&& o < M64 := land_lt_M64_right ho
  have hoa_o : ∀ t, (mask &&& o).testBit t = true → o.testBit t = true := by
    intro t ht
    rw [Nat.testBit_and, Bool.and_eq_true] at ht
    exact ht.2
  have hIdx : (8 : ℤ) * ((e / 8 : ℕ) : ℤ) + ((e % 8 : ℕ) : ℤ) = (e : ℤ) := by omega
  have hsum' : 8 * (-dr) + (-dc) = (s : ℤ) := by omega
  have hdc' : -1 ≤ -dc ∧ -dc ≤ 1 := by omega
  have hcol' : ∀ z, (mask &&& o).testBit z = true →
      ((1 ≤ z % 8 ∧ z % 8 ≤ 6) ∨ -dc = 0) := by
    intro z hz
    rcases hcol z hz with h | h
    · exact Or.inl h
    · exact Or.inr (by omega)
  have hstepN : ∀ j : ℕ,
      (8 : ℤ) * (((e / 8 : ℕ) : ℤ) + (j : ℤ) * dr) + (((e % 8 : ℕ) : ℤ) + (j : ℤ) * dc) =
        (e : ℤ) - ((j * s : ℕ) : ℤ) := by
    intro j
    have hcst : ((j * s : ℕ) : ℤ) = (j : ℤ) * (s : ℤ) := by push_cast; ring
    rw [hcst]
    calc (8 : ℤ) * (((e / 8 : ℕ) : ℤ) + (j : ℤ) * dr) +
          (((e % 8 : ℕ) : ℤ) + (j : ℤ) * dc)
        = ((8 : ℤ) * ((e / 8 : ℕ) : ℤ) + ((e % 8 : ℕ) : ℤ)) + (j : ℤ) * (8 * dr + dc) := by
          ring
      _ = (e : ℤ) + (j : ℤ) * (-(s : ℤ)) := by rw [hIdx, hsum]
      _ = (e : ℤ) - (j : ℤ) * (s : ℤ) := by ring
  rw [laneCapR]
  constructor
  · intro hx
    by_cases hcond : (playRN (2 ^ e) (mask &&& o) s 5 >>> s) &&& p ≠ 0
    swap
    · rw [if_neg hcond] at hx
      simp at hx
    rw [if_pos hcond] at hx
    obtain ⟨z, hz1, hzp⟩ := land_ne_zero_iff.mp hcond
    rw [Nat.testBit_shiftRight] at hz1
    obtain ⟨m, hm1, hm6, hez0, hrunz0⟩ := (playRN_testBit hs 5 (s + z)).mp hz1
    have hez : e = z + (m + 1) * s := by
      have e2 : (m + 1) * s = m * s + s := by ring
      omega
    have hrunz : ∀ t, 1 ≤ t → t ≤ m → (mask &&& o).testBit (z + t * s) = true := by
      intro t h1 ht
      obtain ⟨u, rfl⟩ : ∃ u, t = u + 1 := ⟨t - 1, by omega⟩
      have he : z + (u + 1) * s = (s + z) + u * s := by ring
      rw [he]
      exact hrunz0 u (by omega)
    obtain ⟨m', hm'1, hm'7, hexm, hrun'x⟩ := (playRN_testBit hs 6 x).mp hx
    have hm'm : m' ≤ m := by
      by_contra hgt
      have hsplit : (m' - m - 1) * s + (m + 1) * s = m' * s := by
        have e3 : ((m' - m - 1) + (m + 1)) * s = (m' - m - 1) * s + (m + 1) * s := by ring
        rw [← e3]
        congr 1
        omega
      have hxz : x + (m' - m - 1) * s = z := by omega
      have hbit := hrun'x (m' - m - 1) (by omega)
      rw [hxz] at hbit
      exact hdisj z ⟨hzp, hoa_o z hbit⟩
    have hxval : x = z + (m + 1 - m') * s := by
      have hsplit : (m + 1 - m') * s + m' * s = (m + 1) * s := by
        have e3 : ((m + 1 - m') + m') * s = (m + 1 - m') * s + m' * s := by ring
        rw [← e3]
        congr 1
        omega
      omega
    have hco := run_coords hsum' hdc' hm1 hcol' hrunz
    have hcoE := hco (m + 1) (le_refl _)
    rw [← hez] at hcoE
    refine ⟨m, hm1, ?_, ?_, m', hm'1, hm'm, ?_⟩
    · intro jj h1 hj
      have hbitj := hrunz (m + 1 - jj) (by omega) (by omega)
      have hltj := lt_64_of_testBit hoa64 hbitj
      have hcj := hco (m + 1 - jj) (by omega)
      have ecast : ((m + 1 - jj : ℕ) : ℤ) = (m : ℤ) + 1 - (jj : ℤ) := by omega
      show cellAt o (((e / 8 : ℕ) : ℤ) + (jj : ℤ) * dr) (((e % 8 : ℕ) : ℤ) + (jj : ℤ) * dc)
      have hA : ((e / 8 : ℕ) : ℤ) + (jj : ℤ) * dr = ((z + (m + 1 - jj) * s) / 8 : ℕ) := by
        rw [hcj.1, hcoE.1, ecast]
        push_cast
        ring
      have hB : ((e % 8 : ℕ) : ℤ) + (jj : ℤ) * dc = ((z + (m + 1 - jj) * s) % 8 : ℕ) := by
        rw [hcj.2, hcoE.2, ecast]
        push_cast
        ring
      rw [hA, hB]
      exact cellAt_of_idx hltj (hoa_o _ hbitj)
    · have hzlt : z < 64 := lt_64_of_testBit hp hzp
      show cellAt p (((e / 8 : ℕ) : ℤ) + (((m : ℕ) + 1 : ℕ) : ℤ) * dr)
        (((e % 8 : ℕ) : ℤ) + (((m : ℕ) + 1 : ℕ) : ℤ) * dc)
      have hA : ((e / 8 : ℕ) : ℤ) + (((m : ℕ) + 1 : ℕ) : ℤ) * dr = ((z / 8 : ℕ) : ℤ) := by
        rw [hcoE.1]
        push_cast
        ring
      have hB : ((e % 8 : ℕ) : ℤ) + (((m : ℕ) + 1 : ℕ) : ℤ) * dc = ((z % 8 : ℕ) : ℤ) := by
        rw [hcoE.2]
        push_cast
        ring
      rw [hA, hB]
      exact cellAt_of_idx hzlt hzp
    · have hcx := hco (m + 1 - m') (by omega)
      rw [← hxval] at hcx
      have hx64 : x < 64 := by
        have hb := hrun'x 0 (by omega)
        simp only [Nat.zero_mul, Nat.add_zero] at hb
        exact lt_64_of_testBit hoa64 hb
      have ecast : ((m + 1 - m' : ℕ) : ℤ) = (m : ℤ) + 1 - (m' : ℤ) := by omega
      have hA : ((e / 8 : ℕ) : ℤ) + (m' : ℤ) * dr = ((x / 8 : ℕ) : ℤ) := by
        rw [hcx.1, hcoE.1, ecast]
        push_cast
        ring
      have hB : ((e % 8 : ℕ) : ℤ) + (m' : ℤ) * dc = ((x % 8 : ℕ) : ℤ) := by
        rw [hcx.2, hcoE.2, ecast]
        push_cast
        ring
      rw [hA, hB]
      omega
  · rintro ⟨k, hk1, hrunc, hpc, j, hj1, hjk, hxid⟩
    obtain ⟨y, hy64, hybit, hyeq, hyr, hyc⟩ := idx_of_cellAt hpc
    obtain ⟨hpr0, hpr8, hpc0, hpc8, hpcbit⟩ := hpc
    have hyi : y + (k + 1) * s = e := by
      have := hstepN (k + 1)
      omega
    have hoab : ∀ t, 1 ≤ t → t ≤ k → (mask &&& o).testBit (y + t * s) = true := by
      intro t h1 ht
      obtain ⟨z, hz64, hzbit, hzeq, hzr, hzc⟩ :=
        idx_of_cellAt (hrunc (k + 1 - t) (by omega) (by omega))
      have hsplit : (k + 1 - t) * s + t * s = (k + 1) * s := by
        have e3 : ((k + 1 - t) + t) * s = (k + 1 - t) * s + t * s := by ring
        rw [← e3]
        congr 1
        omega
      have hzi : z = y + t * s := by
        have := hstepN (k + 1 - t)
        omega
      have hcolz : (1 ≤ z % 8 ∧ z % 8 ≤ 6) ∨ dc = 0 := by
        rcases (show dc = -1 ∨ dc = 0 ∨ dc = 1 from by omega) with hd | hd | hd
        · subst hd
          left
          constructor <;> omega
        · subst hd
          right
          rfl
        · subst hd
          left
          constructor <;> omega
      rw [← hzi, Nat.testBit_and, Bool.and_eq_true]
      exact ⟨hmask z hz64 hcolz, hzbit⟩
    have hne : ¬(dr = 0 ∧ dc = 0) := by
      rintro ⟨h1, h2⟩
      rw [h1, h2] at hsum
      simp at hsum
      omega
    have hk6 : k ≤ 6 :=
      run_k_le_6 hdr hdc hne (by omega) (by omega) ⟨hpr0, hpr8⟩ ⟨hpc0, hpc8⟩
    have hcond : (playRN (2 ^ e) (mask &&& o) s 5 >>> s) &&& p ≠ 0 := by
      apply land_ne_zero_iff.mpr
      refine ⟨y, ?_, hybit⟩
      rw [Nat.testBit_shiftRight]
      apply (playRN_testBit hs 5 (s + y)).mpr
      refine ⟨k, hk1, by omega, ?_, ?_⟩
      · have e2 : (k + 1) * s = k * s + s := by ring
        omega
      · intro u hu
        have he : (s + y) + u * s = y + (u + 1) * s := by ring
        rw [he]
        exact hoab (u + 1) (by omega) (by omega)
    rw [if_pos hcond]
    apply (playRN_testBit hs 6 x).mpr
    have hex : e = x + j * s := by
      have := hstepN j
      omega
    have hxy : x = y + (k + 1 - j) * s := by
      have hsplit : (k + 1 - j) * s + j * s = (k + 1) * s := by
        have e3 : ((k + 1 - j) + j) * s = (k + 1 - j) * s + j * s := by ring
        rw [← e3]
        congr 1
        omega
      omega
    refine ⟨j, hj1, by omega, hex, ?_⟩
    intro u hu
    have hsplit2 : (k + 1 - j) * s + u * s = ((k + 1 - j) + u) * s := by ring
    have he : x + u * s = y + ((k + 1 - j) + u) * s := by omega
    rw [he]
    exact hoab ((k + 1 - j) + u) (by omega) (by omega)

/-- The capture set computed by `play_move` is exactly the union of the
terminating runs in the eight directions. -/
theorem playCapture_testBit {p o : ℕ} (hp : p < M64) (ho : o < M64)
    (hdisj : ∀ t, ¬(p.testBit t = true ∧ o.testBit t = true)) {e : ℕ} (he64 : e < 64)
    (x : ℕ) :
    (playCapture p o (2 ^ e)).testBit x = true ↔ capturedSpec p o e x := by
  have hcolS : ∀ dc : ℤ, ∀ z, (Masks.SIDE_COLS_MASK &&& o).testBit z = true →
      ((1 ≤ z % 8 ∧ z % 8 ≤ 6) ∨ dc = 0) := fun dc z hz => Or.inl (side_col_of_oa hz)
  have hcolN : ∀ z, (Masks.NO_COL_MASK &&& o).testBit z = true →
      ((1 ≤ z % 8 ∧ z % 8 ≤ 6) ∨ (0 : ℤ) = 0) := fun z hz => Or.inr rfl
  have hmaskS : ∀ dc : ℤ, dc ≠ 0 → ∀ z, z < 64 →
      ((1 ≤ z % 8 ∧ z % 8 ≤ 6) ∨ dc = 0) → Masks.SIDE_COLS_MASK.testBit z = true := by
    intro dc hdc0 z hz hcc
    exact (side_mask_testBit z).mpr ⟨hz, hcc.resolve_right hdc0⟩
  have hmaskN : ∀ dc : ℤ, ∀ z, z < 64 →
      ((1 ≤ z % 8 ∧ z % 8 ≤ 6) ∨ dc = 0) → Masks.NO_COL_MASK.testBit z = true := by
    intro dc z hz hcc
    exact (no_mask_testBit z).mpr hz
  have hL1 := laneCapL_testBit 1 0 1 hp ho hdisj (by norm_num) (by norm_num)
    (by norm_num) (by norm_num) (hmaskS 1 (by norm_num)) (hcolS 1) he64 x
  have hR1 := laneCapR_testBit 1 0 (-1) hp ho hdisj (by norm_num) (by norm_num)
    (by norm_num) (by norm_num) (hmaskS (-1) (by norm_num)) (hcolS (-1)) he64 x
  have hL7 := laneCapL_testBit 7 1 (-1) hp ho hdisj (by norm_num) (by norm_num)
    (by norm_num) (by norm_num) (hmaskS (-1) (by norm_num)) (hcolS (-1)) he64 x
  have hR7 := laneCapR_testBit 7 (-1) 1 hp ho hdisj (by norm_num) (by norm_num)
    (by norm_num) (by norm_num) (hmaskS 1 (by norm_num)) (hcolS 1) he64 x
  have hL8 := laneCapL_testBit 8 1 0 hp ho hdisj (by norm_num) (by norm_num)
    (by norm_num) (by norm_num) (hmaskN 0) hcolN he64 x
  have hR8 := laneCapR_testBit 8 (-1) 0 hp ho hdisj (by norm_num) (by norm_num)
    (by norm_num) (by norm_num) (hmaskN 0) hcolN he64 x
  have hL9 := laneCapL_testBit 9 1 1 hp ho hdisj (by norm_num) (by norm_num)
    (by norm_num) (by norm_num) (hmaskS 1 (by norm_num)) (hcolS 1) he64 x
  have hR9 := laneCapR_testBit 9 (-1) (-1) hp ho hdisj (by norm_num) (by norm_num)
    (by norm_num) (by norm_num) (hmaskS (-1) (by norm_num)) (hcolS (-1)) he64 x
  rw [playCapture]
  simp only [Nat.testBit_or, Bool.or_eq_true]
  constructor
  · rintro ((((h | h) | (h | h)) | (h | h)) | (h | h))
    · exact ⟨(0, 1), by decide, hL1.mp h⟩
    · exact ⟨(0, -1), by decide, hR1.mp h⟩
    · exact ⟨(1, -1), by decide, hL7.mp h⟩
    · exact ⟨(-1, 1), by decide, hR7.mp h⟩
    · exact ⟨(1, 0), by decide, hL8.mp h⟩
    · exact ⟨(-1, 0), by decide, hR8.mp h⟩
    · exact ⟨(1, 1), by decide, hL9.mp h⟩
    · exact ⟨(-1, -1), by decide, hR9.mp h⟩
  · rintro ⟨d, hdir, hcap⟩
    have hd8 : d = ((0 : ℤ), (1 : ℤ)) ∨ d = (0, -1) ∨ d = (1, -1) ∨ d = (-1, 1) ∨
        d = (1, 0) ∨ d = (-1, 0) ∨ d = (1, 1) ∨ d = (-1, -1) := by
      simpa [dirs8] using hdir
    obtain ⟨dr, dc⟩ := d
    rcases hd8 with h | h | h | h | h | h | h | h <;>
      rw [Prod.mk.injEq] at h <;> obtain ⟨rfl, rfl⟩ := h
    · exact Or.inl (Or.inl (Or.inl (Or.inl (hL1.mpr hcap))))
    · exact Or.inl (Or.inl (Or.inl (Or.inr (hR1.mpr hcap))))
    · exact Or.inl (Or.inl (Or.inr (Or.inl (hL7.mpr hcap))))
    · exact Or.inl (Or.inl (Or.inr (Or.inr (hR7.mpr hcap))))
    · exact Or.inl (Or.inr (Or.inl (hL8.mpr hcap)))
    · exact Or.inl (Or.inr (Or.inr (hR8.mpr hcap)))
    · exact Or.inr (Or.inl (hL9.mpr hcap))
    · exact Or.inr (Or.inr (hR9.mpr hcap))

theorem laneCapL_subset {playing move oa s x : ℕ}
    (h : (laneCapL playing move oa s).testBit x = true) : oa.testBit x = true := by
  rw [laneCapL] at h
  by_cases hc : ((playLN move oa s 5 <<< s) % M64) &&& playing ≠ 0
  · rw [if_pos hc] at h
    exact playLN_subset_oa h
  · rw [if_neg hc] at h
    simp at h

theorem laneCapR_subset {playing move oa s x : ℕ}
    (h : (laneCapR playing move oa s).testBit x = true) : oa.testBit x = true := by
  rw [laneCapR] at h
  by_cases hc : (playRN move oa s 5 >>> s) &&& playing ≠ 0
  · rw [if_pos hc] at h
    exact playRN_subset_oa h
  · rw [if_neg hc] at h
    simp at h

/-- Every captured cell carries an opponent disc. -/
theorem playCapture_subset_opp {playing opponent move x : ℕ}
    (h : (playCapture playing opponent move).testBit x = true) :
    opponent.testBit x = true := by
  rw [playCapture] at h
  simp only [Nat.testBit_or, Bool.or_eq_true] at h
  have hout : ∀ mask, (mask &&& opponent).testBit x = true → opponent.testBit x = true := by
    intro mask ht
    rw [Nat.testBit_and, Bool.and_eq_true] at ht
    exact ht.2
  rcases h with (((h | h) | (h | h)) | (h | h)) | (h | h)
  · exact hout _ (laneCapL_subset h)
  · exact hout _ (laneCapR_subset h)
  · exact hout _ (laneCapL_subset h)
  · exact hout _ (laneCapR_subset h)
  · exact hout _ (laneCapL_subset h)
  · exact hout _ (laneCapR_subset h)
  · exact hout _ (laneCapL_subset h)
  · exact hout _ (laneCapR_subset h)

/-- A legal move lands on an in-range empty cell. -/
theorem legal_move_free {bd : Board} (hw : bd.white_bitmap < M64)
    (hb : bd.black_bitmap < M64) (hdisj : bd.white_bitmap &&& bd.black_bitmap = 0)
    (color : Bool) {e : ℕ} (hlegal : (RvvA.find_moves bd color).testBit e = true) :
    e < 64 ∧ (moverOf bd color).testBit e = false ∧ (oppOf bd color).testBit e = false := by
  have h := (find_moves_iter_testBit hw hb hdisj color (le_refl 5) e).mp
    (by rw [find_moves_iter_five]; exact hlegal)
  have hpo : bd.white_bitmap ||| bd.black_bitmap < M64 := Nat.or_lt_two_pow hw hb
  obtain ⟨h64, hbit⟩ := (compl64_testBit hpo e).mp h.1
  rw [Nat.testBit_or, Bool.or_eq_false_iff] at hbit
  cases color
  · exact ⟨h64, hbit.2, hbit.1⟩
  · exact ⟨h64, hbit.1, hbit.2⟩

/-- **C3** Functional correctness of `play_move`: for every in-range board
state with disjoint occupancy sets and every single-bit move legal for the
given color (a precondition the code does not validate), `play_move` sets the
destination bit for the mover and flips exactly the cells of those contiguous
opponent runs adjacent to the destination that terminate at a mover disc in
their direction; every other cell — in particular every run terminating at an
empty cell or the board edge — is left unchanged. -/
theorem claim_C3 {bd : Board} (hw : bd.white_bitmap < M64) (hb : bd.black_bitmap < M64)
    (hdisj : bd.white_bitmap &&& bd.black_bitmap = 0) (color : Bool) (e : ℕ)
    (hlegal : (RvvA.find_moves bd color).testBit e = true) :
    (∀ x, (moverOf (RvvA.play_move bd color (2 ^ e)) color).testBit x = true ↔
      ((moverOf bd color).testBit x = true ∨ x = e ∨
        capturedSpec (moverOf bd color) (oppOf bd color) e x)) ∧
    (∀ x, (oppOf (RvvA.play_move bd color (2 ^ e)) color).testBit x = true ↔
      ((oppOf bd color).testBit x = true ∧
        ¬capturedSpec (moverOf bd color) (oppOf bd color) e x)) := by
  obtain ⟨he64, hpe, hoe⟩ := legal_move_free hw hb hdisj color hlegal
  have hpM : moverOf bd color < M64 := by cases color <;> [exact hb; exact hw]
  have hoM : oppOf bd color < M64 := by cases color <;> [exact hw; exact hb]
  have hnb := bitmaps_not_both hdisj color
  have hcap := playCapture_testBit hpM hoM hnb he64
  have hmov : moverOf (RvvA.play_move bd color (2 ^ e)) color =
      (moverOf bd color ||| 2 ^ e) |||
        playCapture (moverOf bd color) (oppOf bd color) (2 ^ e) := by
    rw [play_move_A_spec]
    cases color <;> rfl
  have hopp : oppOf (RvvA.play_move bd color (2 ^ e)) color =
      oppOf bd color ^^^ playCapture (moverOf bd color) (oppOf bd color) (2 ^ e) := by
    rw [play_move_A_spec]
    cases color <;> rfl
  constructor
  · intro x
    rw [hmov, Nat.testBit_or, Nat.testBit_or, Bool.or_eq_true, Bool.or_eq_true,
      Nat.testBit_two_pow]
    rw [← hcap x]
    constructor
    · rintro ((h | h) | h)
      · exact Or.inl h
      · rw [decide_eq_true_eq] at h
        exact Or.inr (Or.inl h.symm)
      · exact Or.inr (Or.inr h)
    · rintro (h | h | h)
      · exact Or.inl (Or.inl h)
      · exact Or.inl (Or.inr (by rw [decide_eq_true_eq]; exact h.symm))
      · exact Or.inr h
  · intro x
    rw [hopp, Nat.testBit_xor, ← hcap x]
    cases hcx : (playCapture (moverOf bd color) (oppOf bd color) (2 ^ e)).testBit x
    · simp [hcx]
    · have hox := playCapture_subset_opp hcx
      simp [hcx, hox]

/-- Witness for C3: the initial position, white to move, playing the move at
bit 20. -/
theorem claim_C3_witness :
    (∀ x, (moverOf (RvvA.play_move ⟨2 ^ 27 + 2 ^ 36, 2 ^ 28 + 2 ^ 35⟩ true (2 ^ 20))
        true).testBit x = true ↔
      ((moverOf ⟨2 ^ 27 + 2 ^ 36, 2 ^ 28 + 2 ^ 35⟩ true).testBit x = true ∨ x = 20 ∨
        capturedSpec (moverOf ⟨2 ^ 27 + 2 ^ 36, 2 ^ 28 + 2 ^ 35⟩ true)
          (oppOf ⟨2 ^ 27 + 2 ^ 36, 2 ^ 28 + 2 ^ 35⟩ true) 20 x)) ∧
    (∀ x, (oppOf (RvvA.play_move ⟨2 ^ 27 + 2 ^ 36, 2 ^ 28 + 2 ^ 35⟩ true (2 ^ 20))
        true).testBit x = true ↔
      ((oppOf ⟨2 ^ 27 + 2 ^ 36, 2 ^ 28 + 2 ^ 35⟩ true).testBit x = true ∧
        ¬capturedSpec (moverOf ⟨2 ^ 27 + 2 ^ 36, 2 ^ 28 + 2 ^ 35⟩ true)
          (oppOf ⟨2 ^ 27 + 2 ^ 36, 2 ^ 28 + 2 ^ 35⟩ true) 20 x)) :=
  claim_C3 (by decide) (by decide) (by decide) true 20 (by decide)

theorem land_eq_zero_of_not_both {X Y : ℕ}
    (h : ∀ i, ¬(X.testBit i = true ∧ Y.testBit i = true)) : X &&& Y = 0 := by
  apply eq_zero_iff_no_bits.mpr
  intro i
  rw [Nat.testBit_and]
  cases hx : X.testBit i
  · rfl
  · cases hy : Y.testBit i
    · rfl
    · exact absurd ⟨hx, hy⟩ (h i)

/-- After a legal move, the mover's and the opponent's new occupancy sets
share no cell. -/
theorem play_disjoint_key {bd : Board} (hw : bd.white_bitmap < M64)
    (hb : bd.black_bitmap < M64) (hdisj : bd.white_bitmap &&& bd.black_bitmap = 0)
    (color : Bool) (e : ℕ) (hlegal : (RvvA.find_moves bd color).testBit e = true) :
    ∀ i, ¬((((moverOf bd color ||| 2 ^ e) |||
        playCapture (moverOf bd color) (oppOf bd color) (2 ^ e)).testBit i = true) ∧
      ((oppOf bd color ^^^
        playCapture (moverOf bd color) (oppOf bd color) (2 ^ e)).testBit i = true)) := by
  obtain ⟨he64, hpe, hoe⟩ := legal_move_free hw hb hdisj color hlegal
  have hnb := bitmaps_not_both hdisj color
  rintro i ⟨h1, h2⟩
  rw [Nat.testBit_xor] at h2
  cases hc : (playCapture (moverOf bd color) (oppOf bd color) (2 ^ e)).testBit i
  · rw [hc, Bool.xor_false] at h2
    rw [Nat.testBit_or, Nat.testBit_or, Bool.or_eq_true, Bool.or_eq_true] at h1
    rcases h1 with (hp | hme) | hcap
    · exact hnb i ⟨hp, h2⟩
    · rw [Nat.testBit_two_pow, decide_eq_true_eq] at hme
      rw [← hme] at h2
      rw [hoe] at h2
      exact Bool.false_ne_true h2
    · rw [hc] at hcap
      exact Bool.false_ne_true hcap
  · have ho := playCapture_subset_opp hc
    rw [hc, ho] at h2
    simp at h2

theorem play_disjoint_A {bd : Board} (hw : bd.white_bitmap < M64)
    (hb : bd.black_bitmap < M64) (hdisj : bd.white_bitmap &&& bd.black_bitmap = 0)
    (color : Bool) (e : ℕ) (hlegal : (RvvA.find_moves bd color).testBit e = true) :
    (RvvA.play_move bd color (2 ^ e)).white_bitmap &&&
      (RvvA.play_move bd color (2 ^ e)).black_bitmap = 0 := by
  have hkey := play_disjoint_key hw hb hdisj color e hlegal
  rw [play_move_A_spec]
  cases color
  · exact land_eq_zero_of_not_both fun i => fun ⟨h2, h1⟩ => hkey i ⟨h1, h2⟩
  · exact land_eq_zero_of_not_both hkey

/-- **C4** Disjointness invariant: for every in-range board state with
disjoint occupancy sets and every move drawn from the legal-move set of the
given color, the two occupancy bitmaps are still disjoint after `play_move`,
in each of the three backends. -/
theorem claim_C4 {bd : Board} (hw : bd.white_bitmap < M64) (hb : bd.black_bitmap < M64)
    (hdisj : bd.white_bitmap &&& bd.black_bitmap = 0) (color : Bool) (e : ℕ)
    (hlegal : (RvvA.find_moves bd color).testBit e = true) :
    ((RvvA.play_move bd color (2 ^ e)).white_bitmap &&&
      (RvvA.play_move bd color (2 ^ e)).black_bitmap = 0) ∧
    ((RvvB.play_move bd color (2 ^ e)).white_bitmap &&&
      (RvvB.play_move bd color (2 ^ e)).black_bitmap = 0) ∧
    ((RvvU.play_move bd color (2 ^ e)).white_bitmap &&&
      (RvvU.play_move bd color (2 ^ e)).black_bitmap = 0) := by
  refine ⟨play_disjoint_A hw hb hdisj color e hlegal, ?_, ?_⟩
  · rw [play_move_B_eq_A]
    exact play_disjoint_A hw hb hdisj color e hlegal
  · rw [← play_move_A_eq_U]
    exact play_disjoint_A hw hb hdisj color e hlegal

/-- Witness for C4: the initial position, white to move, move at bit 20. -/
theorem claim_C4_witness :
    ((RvvA.play_move ⟨2 ^ 27 + 2 ^ 36, 2 ^ 28 + 2 ^ 35⟩ true (2 ^ 20)).white_bitmap &&&
      (RvvA.play_move ⟨2 ^ 27 + 2 ^ 36, 2 ^ 28 + 2 ^ 35⟩ true (2 ^ 20)).black_bitmap = 0) ∧
    ((RvvB.play_move ⟨2 ^ 27 + 2 ^ 36, 2 ^ 28 + 2 ^ 35⟩ true (2 ^ 20)).white_bitmap &&&
      (RvvB.play_move ⟨2 ^ 27 + 2 ^ 36, 2 ^ 28 + 2 ^ 35⟩ true (2 ^ 20)).black_bitmap = 0) ∧
    ((RvvU.play_move ⟨2 ^ 27 + 2 ^ 36, 2 ^ 28 + 2 ^ 35⟩ true (2 ^ 20)).white_bitmap &&&
      (RvvU.play_move ⟨2 ^ 27 + 2 ^ 36, 2 ^ 28 + 2 ^ 35⟩ true (2 ^ 20)).black_bitmap = 0) :=
  claim_C4 (by decide) (by decide) (by decide) true 20 (by decide)

/-! ### Disc counting -/

theorem popcount_le_of_subset {u v : ℕ}
    (h : ∀ i, u.testBit i = true → v.testBit i = true) : popcount u ≤ popcount v := by
  apply Finset.card_le_card
  intro a ha
  rw [Finset.mem_filter] at ha ⊢
  exact ⟨ha.1, h a ha.2⟩

theorem lt_M64_of_subset {u v : ℕ}
    (h : ∀ i, u.testBit i = true → v.testBit i = true) (hv : v < M64) : u < M64 := by
  by_contra hge
  push_neg at hge
  obtain ⟨i, hi64, hbit⟩ :=
    Nat.ge_two_pow_implies_high_bit_true (show u ≥ 2 ^ 64 from hge)
  have := h i hbit
  rw [testBit_false_of_ge hv hi64] at this
  exact Bool.false_ne_true this

/-- Counting discs: two disjoint in-range occupancy sets and the complement of
their union partition the 64 cells. -/
theorem popcount_partition {u v : ℕ} (hu : u < M64) (hv : v < M64)
    (hd : u &&& v = 0) :
    popcount u + popcount v + popcount (compl64 (u ||| v)) = 64 := by
  classical
  have hpo : u ||| v < M64 := Nat.or_lt_two_pow hu hv
  have hdisjf : Disjoint ((Finset.range 64).filter fun i => u.testBit i)
      ((Finset.range 64).filter fun i => v.testBit i) := by
    rw [Finset.disjoint_left]
    intro a ha hb
    rw [Finset.mem_filter] at ha hb
    exact land_zero_not_both hd a ⟨ha.2, hb.2⟩
  have hcup : ((Finset.range 64).filter fun i => u.testBit i) ∪
      ((Finset.range 64).filter fun i => v.testBit i) =
      (Finset.range 64).filter fun i => (u ||| v).testBit i := by
    ext a
    simp [Finset.mem_filter, Finset.mem_union, Nat.testBit_or, Bool.or_eq_true, and_or_left]
  have hcompl : ((Finset.range 64).filter fun i => ¬(u ||| v).testBit i) =
      (Finset.range 64).filter fun i => (compl64 (u ||| v)).testBit i := by
    ext a
    simp only [Finset.mem_filter, Finset.mem_range]
    constructor
    · rintro ⟨ha, hbit⟩
      exact ⟨ha, (compl64_testBit hpo a).mpr ⟨ha, by simpa using hbit⟩⟩
    · rintro ⟨ha, hbit⟩
      obtain ⟨h1, h2⟩ := (compl64_testBit hpo a).mp hbit
      exact ⟨ha, by simp [h2]⟩
  have hsplit : ((Finset.range 64).filter fun i => (u ||| v).testBit i).card +
      ((Finset.range 64).filter fun i => ¬(u ||| v).testBit i).card =
      (Finset.range 64).card :=
    Finset.filter_card_add_filter_neg_card_eq_card _
  rw [hcompl] at hsplit
  have hcard : popcount u + popcount v =
      ((Finset.range 64).filter fun i => (u ||| v).testBit i).card := by
    rw [popcount, popcount, ← Finset.card_union_of_disjoint hdisjf, hcup]
  rw [popcount, popcount, popcount] at *
  rw [hcard]
  rw [Finset.card_range] at hsplit
  exact hsplit

/-- **C5** Disc-count monotonicity and conservation: for every in-range board
state with disjoint occupancy sets and every move drawn from the legal-move
set of the moving color, `play_move` never decreases the mover's disc count,
and mover discs + opponent discs + empty cells equal 64 both before and after
the move. -/
theorem claim_C5 {bd : Board} (hw : bd.white_bitmap < M64) (hb : bd.black_bitmap < M64)
    (hdisj : bd.white_bitmap &&& bd.black_bitmap = 0) (color : Bool) (e : ℕ)
    (hlegal : (RvvA.find_moves bd color).testBit e = true) :
    popcount (moverOf bd color) ≤
      popcount (moverOf (RvvA.play_move bd color (2 ^ e)) color) ∧
    popcount bd.white_bitmap + popcount bd.black_bitmap +
      popcount (compl64 (bd.white_bitmap ||| bd.black_bitmap)) = 64 ∧
    popcount (RvvA.play_move bd color (2 ^ e)).white_bitmap +
      popcount (RvvA.play_move bd color (2 ^ e)).black_bitmap +
      popcount (compl64 ((RvvA.play_move bd color (2 ^ e)).white_bitmap |||
        (RvvA.play_move bd color (2 ^ e)).black_bitmap)) = 64 := by
  obtain ⟨he64, hpe, hoe⟩ := legal_move_free hw hb hdisj color hlegal
  have hpM : moverOf bd color < M64 := by cases color <;> [exact hb; exact hw]
  have hoM : oppOf bd color < M64 := by cases color <;> [exact hw; exact hb]
  have hmov : moverOf (RvvA.play_move bd color (2 ^ e)) color =
      (moverOf bd color ||| 2 ^ e) |||
        playCapture (moverOf bd color) (oppOf bd color) (2 ^ e) := by
    rw [play_move_A_spec]
    cases color <;> rfl
  have hopp : oppOf (RvvA.play_move bd color (2 ^ e)) color =
      oppOf bd color ^^^ playCapture (moverOf bd color) (oppOf bd color) (2 ^ e) := by
    rw [play_move_A_spec]
    cases color <;> rfl
  have hcapM : playCapture (moverOf bd color) (oppOf bd color) (2 ^ e) < M64 :=
    lt_M64_of_subset (fun i h => playCapture_subset_opp h) hoM
  have heM : (2 : ℕ) ^ e < M64 := by
    have : (2 : ℕ) ^ e < 2 ^ 64 := Nat.pow_lt_pow_right (by norm_num) he64
    exact this
  have hmovM : moverOf (RvvA.play_move bd color (2 ^ e)) color < M64 := by
    rw [hmov]
    exact Nat.or_lt_two_pow (Nat.or_lt_two_pow hpM heM) hcapM
  have hoppM : oppOf (RvvA.play_move bd color (2 ^ e)) color < M64 := by
    rw [hopp]
    exact Nat.xor_lt_two_pow hoM hcapM
  have hwM' : (RvvA.play_move bd color (2 ^ e)).white_bitmap < M64 := by
    cases color
    · exact hoppM
    · exact hmovM
  have hbM' : (RvvA.play_move bd color (2 ^ e)).black_bitmap < M64 := by
    cases color
    · exact hmovM
    · exact hoppM
  refine ⟨?_, ?_, ?_⟩
  · rw [hmov]
    apply popcount_le_of_subset
    intro i hi
    rw [Nat.testBit_or, Nat.testBit_or, hi]
    rfl
  · exact popcount_partition hw hb hdisj
  · exact popcount_partition hwM' hbM'
      (play_disjoint_A hw hb hdisj color e hlegal)

/-- Witness for C5: the initial position, white to move, move at bit 20. -/
theorem claim_C5_witness :
    popcount (moverOf ⟨2 ^ 27 + 2 ^ 36, 2 ^ 28 + 2 ^ 35⟩ true) ≤
      popcount (moverOf (RvvA.play_move ⟨2 ^ 27 + 2 ^ 36, 2 ^ 28 + 2 ^ 35⟩ true (2 ^ 20))
        true) ∧
    popcount ((2 : ℕ) ^ 27 + 2 ^ 36) + popcount ((2 : ℕ) ^ 28 + 2 ^ 35) +
      popcount (compl64 (((2 : ℕ) ^ 27 + 2 ^ 36) ||| ((2 : ℕ) ^ 28 + 2 ^ 35))) = 64 ∧
    popcount (RvvA.play_move ⟨2 ^ 27 + 2 ^ 36, 2 ^ 28 + 2 ^ 35⟩ true (2 ^ 20)).white_bitmap +
      popcount (RvvA.play_move ⟨2 ^ 27 + 2 ^ 36, 2 ^ 28 + 2 ^ 35⟩ true (2 ^ 20)).black_bitmap +
      popcount (compl64
        ((RvvA.play_move ⟨2 ^ 27 + 2 ^ 36, 2 ^ 28 + 2 ^ 35⟩ true (2 ^ 20)).white_bitmap |||
         (RvvA.play_move ⟨2 ^ 27 + 2 ^ 36, 2 ^ 28 + 2 ^ 35⟩ true (2 ^ 20)).black_bitmap)) =
      64 :=
  claim_C5 (by decide) (by decide) (by decide) true 20 (by decide)

/-! ### The evaluation function

The vectorized evaluator extracts, for lane `c` and byte `r`, the presence bit
of cell `8·r + (7 - c)` of each bitmap and multiplies with the matching
heuristic weight `heuristics_map[63 - (8·r + (7 - c))]` packed in
`heur_cols`; its 16-bit-wrapped sum equals the scalar 64-iteration loop.
-/

theorem shift_land_one (x i : ℕ) :
    (x >>> i) &&& 1 = if x.testBit i then 1 else 0 := by
  rw [Nat.and_one_is_mod, Nat.shiftRight_eq_div_pow]
  rcases Nat.mod_two_eq_zero_or_one (x / 2 ^ i) with h | h <;>
    simp [Nat.testBit_to_div_mod, h]

theorem mask01_testBit (t : ℕ) :
    (0x0101010101010101 : ℕ).testBit t = true ↔ t < 64 ∧ t % 8 = 0 := by
  rcases Nat.lt_or_ge t 64 with h | h
  · revert h
    revert t
    decide
  · rw [testBit_false_of_ge (by decide) h]
    simp
    omega

theorem mask255_testBit (t : ℕ) : (255 : ℕ).testBit t = true ↔ t < 8 := by
  rcases Nat.lt_or_ge t 8 with h | h
  · revert h
    revert t
    decide
  · rw [Nat.testBit_lt_two_pow
      (lt_of_lt_of_le (by norm_num) (Nat.pow_le_pow_right (by norm_num) h))]
    simp
    omega

theorem ite_one_zero_testBit (P : Prop) [Decidable P] (j : ℕ) :
    (if P then (1 : ℕ) else 0).testBit j = (decide P && decide (j = 0)) := by
  by_cases hP : P
  · rw [if_pos hP, show (1 : ℕ) = 2 ^ 0 from by norm_num, Nat.testBit_two_pow]
    simp [hP, eq_comm]
  · rw [if_neg hP, Nat.zero_testBit]
    simp [hP]

/-- Byte `r` of phase-1 lane `c` is the presence bit of cell `8·r + (7-c)`. -/
theorem byteAt_lane (x c r : ℕ) (hc : c < 8) (hr : r < 8) :
    byteAt (bit01_lane x c) r = if x.testBit (8 * r + (7 - c)) then 1 else 0 := by
  apply Nat.eq_of_testBit_eq
  intro j
  rw [byteAt, bit01_lane, Nat.testBit_and, Nat.testBit_shiftRight, Nat.testBit_and,
    Nat.testBit_shiftRight, ite_one_zero_testBit]
  by_cases hj : j = 0
  · subst hj
    have h01 : (0x0101010101010101 : ℕ).testBit (8 * r + 0) = true :=
      (mask01_testBit _).mpr ⟨by omega, by omega⟩
    have h255 : (255 : ℕ).testBit 0 = true := by decide
    have harg : 7 - c + (8 * r + 0) = 8 * r + (7 - c) := by omega
    rw [h01, h255, harg]
    cases hx : x.testBit (8 * r + (7 - c)) <;> simp [hx]
  · have hrhs : decide (j = 0) = false := by simp [hj]
    rw [hrhs, Bool.and_false]
    rcases Nat.lt_or_ge j 8 with hj8 | hj8
    · have h01 : (0x0101010101010101 : ℕ).testBit (8 * r + j) = false := by
        by_contra hcon
        rw [Bool.not_eq_false] at hcon
        have := (mask01_testBit _).mp hcon
        omega
      rw [h01]
      simp
    · have h255 : (255 : ℕ).testBit j = false := by
        by_contra hcon
        rw [Bool.not_eq_false] at hcon
        have := (mask255_testBit _).mp hcon
        omega
      rw [h255]
      simp

/-- Byte `r` of the packed weight column `c`, read as `int8`, is the weight of
cell row `7 - r`, column `c`; a finite check over the concrete table. -/
theorem heur_byte_eval : ∀ c, c < 8 → ∀ r, r < 8 →
    toInt8 (byteAt (rvv_convert_col c) r) = heurW ((7 - r) * 8 + c) := by
  decide

theorem i8sub_bits : ∀ a, a < 2 → ∀ b, b < 2 → i8sub a b = (a : ℤ) - (b : ℤ) := by
  decide

theorem heur_abs_sum : (∑ i ∈ Finset.range 64, |heurW (63 - i)|) = 776 := by
  decide

theorem wrap16_eq_self {z : ℤ} (h1 : -32768 ≤ z) (h2 : z < 32768) : wrap16 z = z := by
  rw [wrap16]
  omega

/-- The presence delta of a cell, `+1` white, `-1` black, `0` empty. -/
def cellDelta (bd : Board) (i : ℕ) : ℤ :=
  (if bd.white_bitmap.testBit i then (1 : ℤ) else 0) -
    (if bd.black_bitmap.testBit i then (1 : ℤ) else 0)

/-- The spec's weighted cell sum: each cell's constant heuristic weight signed
by the owning color. -/
def cellWeightSum (bd : Board) : ℤ :=
  ∑ i ∈ Finset.range 64, cellDelta bd i * heurW (63 - i)

/-- The scalar evaluator is the weighted cell sum plus ten times the
white-minus-black mobility difference. -/
theorem rate_A_eq (bd : Board) :
    RvvA.rate_board bd = cellWeightSum bd +
      10 * ((popcount (RvvA.find_moves bd true) : ℤ) -
        (popcount (RvvA.find_moves bd false) : ℤ)) := by
  simp only [RvvA.rate_board, cellWeightSum]
  congr 1
  apply Finset.sum_congr rfl
  intro i _
  rw [shift_land_one, shift_land_one, cellDelta]
  by_cases hw : bd.white_bitmap.testBit i <;> by_cases hb : bd.black_bitmap.testBit i <;>
    simp [hw, hb]

theorem sum_blocks (H : ℕ → ℤ) :
    (∑ r ∈ Finset.range 8, ∑ j ∈ Finset.range 8, H (8 * r + j)) =
      ∑ i ∈ Finset.range 64, H i := by
  have key : ∀ n, (∑ i ∈ Finset.range (8 * n), H i) =
      ∑ r ∈ Finset.range n, ∑ j ∈ Finset.range 8, H (8 * r + j) := by
    intro n
    induction n with
    | zero => simp
    | succ n IH =>
      rw [show 8 * (n + 1) = 8 * n + 8 from by ring, Finset.sum_range_add, IH]
      exact (Finset.sum_range_succ (fun r => ∑ j ∈ Finset.range 8, H (8 * r + j)) n).symm
  exact (key 8).symm

/-- The vectorized weight sum, before wrapping, equals the weighted cell sum. -/
theorem rate_vec_cell_eq (bd : Board) :
    (∑ c ∈ Finset.range 8, ∑ r ∈ Finset.range 8,
      i8sub (byteAt (bit01_lane bd.white_bitmap c) r)
          (byteAt (bit01_lane bd.black_bitmap c) r) *
        toInt8 (byteAt (rvv_convert_col c) r)) =
    ∑ i ∈ Finset.range 64, cellDelta bd i * heurW (63 - i) := by
  have hterm : ∀ c ∈ Finset.range 8, ∀ r ∈ Finset.range 8,
      i8sub (byteAt (bit01_lane bd.white_bitmap c) r)
          (byteAt (bit01_lane bd.black_bitmap c) r) *
        toInt8 (byteAt (rvv_convert_col c) r) =
      cellDelta bd (8 * r + (7 - c)) * heurW ((7 - r) * 8 + c) := by
    intro c hc r hr
    rw [Finset.mem_range] at hc hr
    rw [byteAt_lane _ _ _ hc hr, byteAt_lane _ _ _ hc hr, heur_byte_eval c hc r hr,
      i8sub_bits _ (by split <;> norm_num) _ (by split <;> norm_num), cellDelta]
    by_cases h1 : bd.white_bitmap.testBit (8 * r + (7 - c)) <;>
      by_cases h2 : bd.black_bitmap.testBit (8 * r + (7 - c)) <;> simp [h1, h2]
  rw [Finset.sum_congr rfl fun c hc => Finset.sum_congr rfl fun r hr => hterm c hc r hr]
  rw [← Finset.sum_range_reflect]
  have hrefl : ∀ c ∈ Finset.range 8,
      (∑ r ∈ Finset.range 8, cellDelta bd (8 * r + (7 - (8 - 1 - c))) *
        heurW ((7 - r) * 8 + (8 - 1 - c))) =
      ∑ r ∈ Finset.range 8, cellDelta bd (8 * r + c) * heurW (63 - (8 * r + c)) := by
    intro c hc
    rw [Finset.mem_range] at hc
    apply Finset.sum_congr rfl
    intro r hr
    rw [Finset.mem_range] at hr
    rw [show 7 - (8 - 1 - c) = c from by omega, show (7 - r) * 8 + (8 - 1 - c) =
      63 - (8 * r + c) from by omega]
  rw [Finset.sum_congr rfl hrefl, Finset.sum_comm]
  exact sum_blocks fun i => cellDelta bd i * heurW (63 - i)

theorem cellDelta_abs_le (bd : Board) (i : ℕ) : |cellDelta bd i| ≤ 1 := by
  rw [cellDelta]
  by_cases h1 : bd.white_bitmap.testBit i <;> by_cases h2 : bd.black_bitmap.testBit i <;>
    simp [h1, h2]

/-- With the concrete weight table, the cell sum never overflows `int16`. -/
theorem cellsum_bound (bd : Board) :
    -32768 ≤ (∑ i ∈ Finset.range 64, cellDelta bd i * heurW (63 - i)) ∧
      (∑ i ∈ Finset.range 64, cellDelta bd i * heurW (63 - i)) < 32768 := by
  have habs : |∑ i ∈ Finset.range 64, cellDelta bd i * heurW (63 - i)| ≤ 776 := by
    calc |∑ i ∈ Finset.range 64, cellDelta bd i * heurW (63 - i)|
        ≤ ∑ i ∈ Finset.range 64, |cellDelta bd i * heurW (63 - i)| :=
          Finset.abs_sum_le_sum_abs _ _
      _ ≤ ∑ i ∈ Finset.range 64, |heurW (63 - i)| := by
          apply Finset.sum_le_sum
          intro i _
          rw [abs_mul]
          calc |cellDelta bd i| * |heurW (63 - i)| ≤ 1 * |heurW (63 - i)| := by
                apply mul_le_mul_of_nonneg_right (cellDelta_abs_le bd i) (abs_nonneg _)
            _ = |heurW (63 - i)| := one_mul _
      _ = 776 := heur_abs_sum
  have h := abs_le.mp habs
  constructor <;> omega

/-- The vectorized evaluator agrees with the scalar evaluator. -/
theorem rate_U_eq_A (bd : Board) : RvvU.rate_board bd = RvvA.rate_board bd := by
  simp only [RvvU.rate_board, rate_board_vec]
  rw [rate_vec_cell_eq bd,
    wrap16_eq_self (cellsum_bound bd).1 (cellsum_bound bd).2, rate_A_eq]
  have h1 : RvvA.find_moves bd true = RvvU.find_moves_core bd.white_bitmap bd.black_bitmap
      (compl64 (bd.white_bitmap ||| bd.black_bitmap)) := by
    rw [find_moves_A_eq_U]
    rfl
  have h2 : RvvA.find_moves bd false = RvvU.find_moves_core bd.black_bitmap bd.white_bitmap
      (compl64 (bd.white_bitmap ||| bd.black_bitmap)) := by
    rw [find_moves_A_eq_U]
    rfl
  rw [h1, h2, cellWeightSum]

theorem rate_B_eq_U (bd : Board) : RvvB.rate_board bd = RvvU.rate_board bd := by
  have h1 : RvvB.find_moves bd true = RvvU.find_moves_core bd.white_bitmap bd.black_bitmap
      (compl64 (bd.white_bitmap ||| bd.black_bitmap)) := by
    rw [find_moves_B_eq_A, find_moves_A_eq_U]
    rfl
  have h2 : RvvB.find_moves bd false = RvvU.find_moves_core bd.black_bitmap bd.white_bitmap
      (compl64 (bd.white_bitmap ||| bd.black_bitmap)) := by
    rw [find_moves_B_eq_A, find_moves_A_eq_U]
    rfl
  simp only [RvvB.rate_board, RvvU.rate_board, h1, h2]

/-- **C1** Backend equivalence: the three RVV board implementations return the
same legal-move mask from `find_moves`, the same post-move occupancy sets from
`play_move`, and the same evaluation score from `rate_board`, for identical
inputs.  The `rate_board` part depends on the modelled `heuristics_map`
values: each weight fits in `int8` and the weight magnitudes sum below
`2^15`, so the vectorized `int8`/`int16` pipeline is exact. -/
theorem claim_C1 (bd : Board) (color : Bool) (move : ℕ) :
    (RvvA.find_moves bd color = RvvU.find_moves bd color ∧
     RvvB.find_moves bd color = RvvU.find_moves bd color) ∧
    (RvvA.play_move bd color move = RvvU.play_move bd color move ∧
     RvvB.play_move bd color move = RvvU.play_move bd color move) ∧
    (RvvA.rate_board bd = RvvU.rate_board bd ∧
     RvvB.rate_board bd = RvvU.rate_board bd) := by
  refine ⟨⟨find_moves_A_eq_U bd color, ?_⟩,
    ⟨play_move_A_eq_U bd color move, ?_⟩,
    ⟨(rate_U_eq_A bd).symm, rate_B_eq_U bd⟩⟩
  · rw [find_moves_B_eq_A]
    exact find_moves_A_eq_U bd color
  · rw [play_move_B_eq_A]
    exact play_move_A_eq_U bd color move

/-- The spec's side-to-move reading of the evaluator: weighted cell sum plus
ten times mover-minus-opponent mobility.  Stated from the claim's words, to be
compared with `rate_board`, which takes no side-to-move input. -/
def rate_board_claimSpec (bd : Board) (sideToMove : Bool) : ℤ :=
  cellWeightSum bd +
    10 * ((popcount (RvvA.find_moves bd sideToMove) : ℤ) -
      (popcount (RvvA.find_moves bd (!sideToMove)) : ℤ))

/-- With black to move on a board where only white has a legal move, the
implementation adds `+10` for white's mobility while the side-to-move reading
subtracts it. -/
theorem claim_C6_counterexample :
    RvvA.rate_board ⟨2 ^ 0, 2 ^ 9⟩ ≠ rate_board_claimSpec ⟨2 ^ 0, 2 ^ 9⟩ false := by
  decide

/-- **C6** (corrected) `rate_board` is a pure function of the board state alone
equal to the weighted cell sum plus ten times the white-minus-black
legal-move-count difference — the fixed white perspective, not the
mover-minus-opponent difference of the side to move. -/
theorem claim_C6 (bd : Board) :
    RvvA.rate_board bd = cellWeightSum bd +
      10 * ((popcount (RvvA.find_moves bd true) : ℤ) -
        (popcount (RvvA.find_moves bd false) : ℤ)) ∧
    RvvU.rate_board bd = cellWeightSum bd +
      10 * ((popcount (RvvU.find_moves bd true) : ℤ) -
        (popcount (RvvU.find_moves bd false) : ℤ)) := by
  refine ⟨rate_A_eq bd, ?_⟩
  rw [rate_U_eq_A, rate_A_eq, find_moves_A_eq_U bd true, find_moves_A_eq_U bd false]

/-- Swapping the two bitmaps swaps the roles of the two colors in
`find_moves`; the free-cell mask is symmetric. -/
theorem find_moves_swap (bd : Board) (color : Bool) :
    RvvA.find_moves ⟨bd.black_bitmap, bd.white_bitmap⟩ color =
      RvvA.find_moves bd (!color) := by
  rw [find_moves_A_eq_U, find_moves_A_eq_U]
  cases color
  · show RvvU.find_moves_core bd.white_bitmap bd.black_bitmap
        (compl64 (bd.black_bitmap ||| bd.white_bitmap)) = _
    rw [Nat.lor_comm bd.black_bitmap bd.white_bitmap]
    rfl
  · show RvvU.find_moves_core bd.black_bitmap bd.white_bitmap
        (compl64 (bd.black_bitmap ||| bd.white_bitmap)) = _
    rw [Nat.lor_comm bd.black_bitmap bd.white_bitmap]
    rfl

theorem cellWeightSum_swap (bd : Board) :
    cellWeightSum ⟨bd.black_bitmap, bd.white_bitmap⟩ = -cellWeightSum bd := by
  rw [cellWeightSum, cellWeightSum, ← Finset.sum_neg_distrib]
  apply Finset.sum_congr rfl
  intro i _
  simp only [cellDelta]
  ring

/-- **C9** Color antisymmetry: for a board with disjoint occupancy sets,
swapping the white and black bitmaps negates `rate_board` in both the scalar
and the vectorized backend — the weighted cell sum and the ten-per-move
mobility term each negate. -/
theorem claim_C9 (bd : Board)
    (hd : bd.white_bitmap &&& bd.black_bitmap = 0) :
    RvvA.rate_board ⟨bd.black_bitmap, bd.white_bitmap⟩ = -RvvA.rate_board bd ∧
    RvvU.rate_board ⟨bd.black_bitmap, bd.white_bitmap⟩ = -RvvU.rate_board bd := by
  have hA : RvvA.rate_board ⟨bd.black_bitmap, bd.white_bitmap⟩ =
      -RvvA.rate_board bd := by
    rw [rate_A_eq, rate_A_eq, cellWeightSum_swap, find_moves_swap bd true,
      find_moves_swap bd false]
    simp only [Bool.not_true, Bool.not_false]
    ring
  exact ⟨hA, by rw [rate_U_eq_A, rate_U_eq_A, hA]⟩

/-- Realizes **C9** at the standard initial position. -/
theorem claim_C9_witness :
    (2 ^ 27 + 2 ^ 36 : ℕ) &&& (2 ^ 28 + 2 ^ 35) = 0 ∧
    (RvvA.rate_board ⟨2 ^ 28 + 2 ^ 35, 2 ^ 27 + 2 ^ 36⟩ =
        -RvvA.rate_board ⟨2 ^ 27 + 2 ^ 36, 2 ^ 28 + 2 ^ 35⟩ ∧
      RvvU.rate_board ⟨2 ^ 28 + 2 ^ 35, 2 ^ 27 + 2 ^ 36⟩ =
        -RvvU.rate_board ⟨2 ^ 27 + 2 ^ 36, 2 ^ 28 + 2 ^ 35⟩) :=
  ⟨by decide, claim_C9 ⟨2 ^ 27 + 2 ^ 36, 2 ^ 28 + 2 ^ 35⟩ (by decide)⟩

end Reversan
